import Mathlib

/-!
Verification development for the TownCrier message pipeline.

The Python sources are shallowly embedded: external effects (Slack API
responses, the LLM endpoint, the file system, wall-clock time) are passed in
as explicit data, and each script-level function becomes a pure Lean
definition over that data.  Machine floats only appear as sort keys and
cutoff comparisons, so timestamps are embedded as integers.
-/

namespace TownCrier

/-- A Slack API error, identified by the `error` field of its response
(`e.response['error']` in the Python sources). -/
structure SlackErr where
  code : String
deriving DecidableEq, Repr

/-! ### `src/slack_client.py`: the per-page retry loop of `get_channel_history`

Each call to `conversations_history` either succeeds with a page or raises a
`SlackApiError`.  The outcomes of successive attempts are supplied as a
function from the attempt index. -/

/-- The retry loop body (`for retry in range(max_retries)` at
`slack_client.py:115`): try the call; on a `rate_limited` error sleep and move
to the next attempt; re-raise any other error; when the fuel runs out, raise a
fresh `rate_limited` error (`slack_client.py:128`). -/
def retryAttempts (outcomes : Nat → Except SlackErr α) : Nat → Nat → Except SlackErr α
  | 0, _ => .error ⟨"rate_limited"⟩
  | fuel + 1, i =>
    match outcomes i with
    | .ok page => .ok page
    | .error e =>
      if e.code = "rate_limited" then retryAttempts outcomes fuel (i + 1)
      else .error e

/-- One page fetch of `get_channel_history`, `max_retries = 3`
(`slack_client.py:113-128`). -/
def fetchPageWithRetry (outcomes : Nat → Except SlackErr α) : Except SlackErr α :=
  retryAttempts outcomes 3 0

/-! ### `run_full_pipeline.py`: the pipeline driver `main` -/

/-- The four pipeline steps of `run_full_pipeline.py`. -/
inductive Step
  | collect
  | summarize
  | post
  | forward
deriving DecidableEq, Repr

/-- What a run of `main` (`run_full_pipeline.py:314-355`) did: which steps ran,
and whether the final completion report was reached.  Each `stepN` function
reports success as a boolean; exceptions inside a step are caught there and
reported as failure. -/
structure PipelineRun where
  executed : List Step
  reportedCompletion : Bool
deriving DecidableEq, Repr

/-- The control flow of `main`: run step 1; on failure abort; likewise for
steps 2 and 3; run step 4; on its failure print a warning but continue to the
completion report. -/
def pipelineMain (s1 s2 s3 s4 : Bool) : PipelineRun :=
  if !s1 then ⟨[.collect], false⟩
  else if !s2 then ⟨[.collect, .summarize], false⟩
  else if !s3 then ⟨[.collect, .summarize, .post], false⟩
  else ⟨[.collect, .summarize, .post, .forward], true⟩

/-! ### `src/slack_client.py`: `get_thread_replies` -/

/-- `get_thread_replies` (`slack_client.py:164-178`): the underlying
`conversations_replies` call either returns a message list or raises.  On
success the first message (the thread parent) is dropped
(`replies[1:] if len(replies) > 1 else []`); on a `SlackApiError` the
function returns the empty list. -/
def get_thread_replies (result : Except SlackErr (List α)) : List α :=
  match result with
  | .error _ => []
  | .ok replies => if replies.length > 1 then replies.drop 1 else []

/-! ### `src/slack_client.py`: `get_user_info` -/

/-- The raw `user` object of a `users_info` response; absent JSON keys are
`none` (`user.get('name', ...)`, `user.get('profile', {}).get(...)`). -/
structure UserRaw where
  name : Option String
  real_name : Option String
  display_name : Option String
deriving DecidableEq, Repr

/-- The dictionary `get_user_info` returns (`slack_client.py:258-271`). -/
structure UserInfo where
  id : String
  name : String
  real_name : String
  display_name : String
deriving DecidableEq, Repr

/-- `get_user_info` (`slack_client.py:253-271`): on success, fill each field
from the user object with its default; on a `SlackApiError`, return the
placeholder record. -/
def get_user_info (user_id : String) (result : Except SlackErr UserRaw) : UserInfo :=
  match result with
  | .ok user =>
    { id := user_id
      name := user.name.getD "Unknown"
      real_name := user.real_name.getD "Unknown"
      display_name := user.display_name.getD "" }
  | .error _ =>
    { id := user_id, name := "Unknown", real_name := "Unknown", display_name := "" }

/-- Python's `a or b` on strings: the empty string is falsy. -/
def orElseStr (a b : String) : String :=
  if a = "" then b else a

/-- `user_info.get('display_name') or user_info.get('real_name') or
user_info.get('name')` (`collect_messages.py:84`). -/
def pickUserName (u : UserInfo) : String :=
  orElseStr u.display_name (orElseStr u.real_name u.name)

/-- The `user_name` field stored for a processed message
(`collect_messages.py:95`): `None` when the message has no author id, else the
resolved name, with `or "Unknown"` as the final fallback. -/
def userNameField (uinfo : Option UserInfo) : String :=
  match uinfo with
  | none => "Unknown"
  | some u => orElseStr (pickUserName u) "Unknown"

/-! ### `src/slack_client.py`: the pagination window of `get_channel_history`

The loop at `slack_client.py:95-154` fetches pages of messages; the successive
server responses are supplied as a list of pages, consumed in order.  A
message's `ts` (`float(msg.get('ts', 0))`) is embedded as an integer number of
seconds. -/

/-- One message of a `conversations_history` page, reduced to its sort key and
an opaque payload. -/
structure HistMsg where
  ts : Int
  payload : String
deriving DecidableEq, Repr

/-- One `conversations_history` response page. -/
structure HistPage where
  messages : List HistMsg
  has_more : Bool
  next_cursor : Option String
deriving DecidableEq, Repr

/-- The inner filter of `slack_client.py:133-143`: walk the page's messages
collecting those with `ts >= oldest`; at the first older message stop, also
reporting (via the boolean) that the whole fetch must return early. -/
def windowScan (oldest : Int) : List HistMsg → List HistMsg × Bool
  | [] => ([], false)
  | m :: rest =>
    if oldest ≤ m.ts then
      (m :: (windowScan oldest rest).1, (windowScan oldest rest).2)
    else ([], true)

/-- The pagination loop of `get_channel_history` over the given cutoff: filter
each page through `windowScan`; return early when an old message was seen;
otherwise continue to the next page while `has_more` holds and a cursor is
present. -/
def paginateHistory (oldest : Int) : List HistPage → List HistMsg
  | [] => []
  | p :: rest =>
    if (windowScan oldest p.messages).2 then (windowScan oldest p.messages).1
    else if p.has_more then
      match p.next_cursor with
      | some _ => (windowScan oldest p.messages).1 ++ paginateHistory oldest rest
      | none => (windowScan oldest p.messages).1
    else (windowScan oldest p.messages).1

/-- `get_channel_history(channel_id, days)` (`slack_client.py:83-158`): the
cutoff is the call time minus `days` days (`datetime.now() - timedelta(days)`,
i.e. `days * 86400` seconds). -/
def get_channel_history (now : Int) (days : Int) (pages : List HistPage) : List HistMsg :=
  paginateHistory (now - days * 86400) pages

/-! ### `summarize_all_channels.py` / `run_full_pipeline.py`:
`prepare_channel_context`

Collected messages carry a `timestamp` (a numeric string in the JSON, read as
a float sort key: embedded as an integer), a `user_name`, a `text`, and for
top-level messages a list of replies.  The `strftime` rendering of a
timestamp depends on the host timezone, so it is passed in as a function. -/

/-- A collected thread reply as stored in the JSON data. -/
structure Reply where
  timestamp : Int
  user_name : String
  text : String
deriving DecidableEq, Repr

/-- A collected top-level message as stored in the JSON data. -/
structure Msg where
  timestamp : Int
  user_name : String
  text : String
  replies : List Reply
deriving DecidableEq, Repr

/-- One channel's entry of the JSON data, as `prepare_channel_context` reads
it. -/
structure ChannelData where
  messages : List Msg
deriving DecidableEq, Repr

/-- Python truthiness of `text.strip()`: true when the text is empty or
whitespace-only. -/
def blankB (s : String) : Bool :=
  s.trim = ""

/-- The sort key comparison `float(x.get('timestamp', 0))` for messages.
Python's `sorted` is stable, as is insertion sort, so `List.insertionSort`
computes the same list. -/
def msgTsLe (a b : Msg) : Prop :=
  a.timestamp ≤ b.timestamp

instance : DecidableRel msgTsLe := fun a b => inferInstanceAs (Decidable (_ ≤ _))

/-- The sort key comparison for replies. -/
def replyTsLe (a b : Reply) : Prop :=
  a.timestamp ≤ b.timestamp

instance : DecidableRel replyTsLe := fun a b => inferInstanceAs (Decidable (_ ≤ _))

/-- The line rendered for a top-level message
(`summarize_all_channels.py:47`). -/
def msgLine (fmt : Int → String) (m : Msg) : String :=
  "[" ++ fmt m.timestamp ++ "] " ++ m.user_name ++ ": " ++ m.text.trim

/-- The line rendered for a reply (`summarize_all_channels.py:65`). -/
def replyLine (fmt : Int → String) (r : Reply) : String :=
  "  └─ [" ++ fmt r.timestamp ++ "] " ++ r.user_name ++ ": " ++ r.text.trim

/-- The replies of one message, sorted chronologically, with blank replies
skipped (`summarize_all_channels.py:53-57`). -/
def keptReplies (m : Msg) : List Reply :=
  (m.replies.insertionSort replyTsLe).filter (fun r => !blankB r.text)

/-- The lines contributed by one sorted top-level message
(`summarize_all_channels.py:33-68`): nothing when its text is blank,
otherwise its own line, its kept replies' lines, and a spacing line. -/
def msgBlock (fmt : Int → String) (m : Msg) : List String :=
  if blankB m.text then []
  else msgLine fmt m :: ((keptReplies m).map (replyLine fmt) ++ [""])

/-- The `context_parts` list built by `prepare_channel_context`. -/
def contextParts (fmt : Int → String) (messages : List Msg) : List String :=
  (messages.insertionSort msgTsLe).flatMap (msgBlock fmt)

/-- `prepare_channel_context` (`summarize_all_channels.py:19-70` and the
identical copy at `run_full_pipeline.py:21-72`). -/
def prepare_channel_context (fmt : Int → String) (cd : ChannelData) : String :=
  if cd.messages.isEmpty then "No messages found in this channel."
  else String.intercalate "\n" (contextParts fmt cd.messages)

/-- The sorted top-level messages that survive the blank filter; the claim's
"top-level messages appearing in the transcript". -/
def keptMessages (messages : List Msg) : List Msg :=
  (messages.insertionSort msgTsLe).filter (fun m => !blankB m.text)

/-! ### Artifact selection (`run_full_pipeline.py` step 2/3,
`summarize_all_channels.py`, `post_latest_summary.py`, `post_latest_data.py`)

A directory is embedded as the list of names `os.listdir` returns, `none`
when the directory is absent (`os.listdir` raises, `os.path.exists` is
false).  For `find_most_recent_json` each file also carries its modification
time. -/

/-- `f.startswith(pre)` on the character level. -/
def startsWithName (pre f : String) : Bool :=
  pre.toList.isPrefixOf f.toList

/-- `f.endswith(suf)` on the character level. -/
def endsWithName (suf f : String) : Bool :=
  suf.toList.isSuffixOf f.toList

/-- Executable lexicographic comparison of character lists (by code point,
as Python compares strings). -/
def charLeB : List Char → List Char → Bool
  | [], _ => true
  | _ :: _, [] => false
  | a :: x, b :: y => if a < b then true else if b < a then false else charLeB x y

/-- Lexicographic string order, the comparison used by Python's `sorted` on
file names; proved equivalent to the standard `≤` on `String` below. -/
def strLe (a b : String) : Prop :=
  charLeB a.toList b.toList = true

instance : DecidableRel strLe := fun a b =>
  inferInstanceAs (Decidable (charLeB a.toList b.toList = true))

/-- `sorted([f for f in files if f.startswith(pre) and f.endswith(suf)])[-1]`,
`none` when no file matches (the scripts report an error then). -/
def latestByName (pre suf : String) (files : List String) : Option String :=
  ((files.filter (fun f => startsWithName pre f && endsWithName suf f)).insertionSort
    strLe).getLast?

/-- Step 2's input selection (`run_full_pipeline.py:118-124`,
`summarize_all_channels.py:93-105`): the lexicographically greatest
`messages_*.json` in `data/`. -/
def step2SelectInput : Option (List String) → Option String
  | none => none
  | some files => latestByName "messages_" ".json" files

/-- `find_latest_summary` (`post_latest_summary.py:7-22`, and the inline copy
in `run_full_pipeline.py:219-227`): the lexicographically greatest
`summary_*.txt` in `summaries/`. -/
def find_latest_summary : Option (List String) → Option String
  | none => none
  | some files => latestByName "summary_" ".txt" files

/-- A file of `data/` together with its modification time. -/
structure DataFile where
  name : String
  mtime : Int
deriving DecidableEq, Repr

/-- Python's `max(files, key=mtime)`: keep the current maximum unless a
strictly larger key appears. -/
def maxByMtime (f : DataFile) (rest : List DataFile) : DataFile :=
  rest.foldl (fun best g => if best.mtime < g.mtime then g else best) f

/-- `find_most_recent_json` (`post_latest_data.py:11-23`):
`FileNotFoundError` when the directory is absent or holds no `*.json`
file, otherwise the `*.json` file with the greatest modification time. -/
def find_most_recent_json : Option (List DataFile) → Except String DataFile
  | none => .error "Data directory not found"
  | some files =>
    match files.filter (fun f => endsWithName ".json" f.name) with
    | [] => .error "No JSON files found in data directory"
    | f :: rest => .ok (maxByMtime f rest)

/-- Decimal digit test for timestamp characters. -/
def isDigitCh (c : Char) : Bool :=
  '0' ≤ c && c ≤ '9'

/-- Value of a decimal digit character. -/
def digitVal (c : Char) : Nat :=
  c.toNat - 48

/-- Numeric value of a big-endian digit string. -/
def digitsNum : List Char → Nat
  | [] => 0
  | c :: t => digitVal c * 10 ^ t.length + digitsNum t

/-- A `%Y%m%d_%H%M%S` stamp: eight digits, an underscore, six digits. -/
def goodStamp (s : List Char) : Prop :=
  ∃ d1 d2, s = d1 ++ '_' :: d2 ∧ d1.length = 8 ∧ d2.length = 6 ∧
    (∀ c ∈ d1, isDigitCh c) ∧ (∀ c ∈ d2, isDigitCh c)

/-- The numeric timestamp carried by a file name: the value of its digits in
order.  For `messages_%Y%m%d_%H%M%S.json` and `summary_%Y%m%d_%H%M%S.txt`
names the fixed prefix and suffix contribute no digits, so this is the value
of the 14-digit stamp. -/
def stampValue (name : String) : Nat :=
  digitsNum (name.toList.filter isDigitCh)

/-- A file name following the timestamped naming convention. -/
def stampedName (pre suf name : String) : Prop :=
  ∃ st, name.toList = pre.toList ++ st ++ suf.toList ∧ goodStamp st

/-! ### Rate-limiting traces (`src/slack_client.py`,
`run_full_pipeline.py` step 3, `post_latest_summary.py`)

Each client method is abstracted to the sequence of sleeps and chat-API
invocations it performs; the claim is about the shape of these traces. -/

/-- An observable action: sleeping for a number of seconds, or invoking a
chat-platform API method. -/
inductive Ev
  | sleep (seconds : Int)
  | apiCall (method : String)
deriving DecidableEq, Repr

/-- `sleepGuardedAux afterSleep tr`: every API call in `tr` is preceded by a
sleep executed after the previous API call (`afterSleep` says whether such a
sleep has already happened before `tr` starts). -/
def sleepGuardedAux : Bool → List Ev → Bool
  | _, [] => true
  | afterSleep, .apiCall _ :: rest => afterSleep && sleepGuardedAux false rest
  | _, .sleep _ :: rest => sleepGuardedAux true rest

/-- No code path of the trace reaches an API invocation without first
executing a sleep since the preceding invocation. -/
def sleepGuarded (tr : List Ev) : Bool :=
  sleepGuardedAux false tr

/-- `test_connection` (`slack_client.py:19-30`). -/
def test_connection_trace : List Ev :=
  [.sleep 30, .apiCall "auth_test"]

/-- `get_all_accessible_channels` (`slack_client.py:32-59`); `get_lab_channels`
delegates to it and adds no API call of its own. -/
def get_all_accessible_channels_trace : List Ev :=
  [.sleep 30, .apiCall "conversations_list"]

/-- `get_thread_replies` (`slack_client.py:164-178`). -/
def get_thread_replies_trace : List Ev :=
  [.sleep 30, .apiCall "conversations_replies"]

/-- `get_user_info` (`slack_client.py:253-271`). -/
def get_user_info_trace : List Ev :=
  [.sleep 30, .apiCall "users_info"]

/-- `upload_file` (`slack_client.py:233-251`). -/
def upload_file_trace : List Ev :=
  [.sleep 30, .apiCall "files_upload_v2"]

/-- The retry loop of one `get_channel_history` page (`slack_client.py:115-125`):
one call per attempt, each rate-limited failure followed by a `Retry-After`
sleep before the next attempt; `ras` lists those observed sleeps (the code
caps them at two, `max_retries - 1`; the trace is defined for any list). -/
def historyAttemptEvents : List Int → List Ev
  | [] => [.apiCall "conversations_history"]
  | ra :: rest => .apiCall "conversations_history" :: .sleep ra :: historyAttemptEvents rest

/-- The full trace of `get_channel_history` (`slack_client.py:95-154`): each
page iteration starts with `time.sleep(30)` and then runs its retry loop. -/
def get_channel_history_trace (pages : List (List Int)) : List Ev :=
  pages.flatMap (fun ras => .sleep 30 :: historyAttemptEvents ras)

/-- The attempt loop of `post_message` / `post_reply`
(`slack_client.py:180-231`): each attempt sleeps `delay` then calls
`chat_postMessage`; a rate-limited failure sleeps `Retry-After`, another
failure sleeps 10 seconds unless it was the last attempt.  `outcomes i` is
`none` for success and `some (error, retryAfter)` for a failure. -/
def postAttempts (delay : Int) (outcomes : Nat → Option (String × Int)) :
    Nat → Nat → List Ev
  | 0, _ => []
  | fuel + 1, i =>
    .sleep delay :: .apiCall "chat_postMessage" ::
      (match outcomes i with
       | none => []
       | some (code, ra) =>
         if code = "rate_limited" then .sleep ra :: postAttempts delay outcomes fuel (i + 1)
         else if 0 < fuel then .sleep 10 :: postAttempts delay outcomes fuel (i + 1)
         else [])

/-- `post_message` with `max_retries = 3` and its 30-second delay. -/
def post_message_trace (outcomes : Nat → Option (String × Int)) : List Ev :=
  postAttempts 30 outcomes 3 0

/-- `post_reply` with `max_retries = 3` and its reduced 5-second delay. -/
def post_reply_trace (outcomes : Nat → Option (String × Int)) : List Ev :=
  postAttempts 5 outcomes 3 0

/-- The chat-API trace of the summary-posting flow
(`run_full_pipeline.py:234-269` and `post_latest_summary.py:39-97`):
`test_connection`, then a `conversations_list` issued directly on the raw
`WebClient` (`client.client.conversations_list`, `run_full_pipeline.py:240`,
`post_latest_summary.py:48`) with no sleep of its own, then the date message
and the summary reply. -/
def summary_post_flow_trace (pmOut prOut : Nat → Option (String × Int)) : List Ev :=
  test_connection_trace ++ [.apiCall "conversations_list"] ++
    post_message_trace pmOut ++ post_reply_trace prOut

/-! ### `collect_messages.py` / `collect_all_history.py`:
`resolve_user_mentions`

Texts are handled at the character-list level so that the regex scan of
`re.findall(r'<@(U[A-Z0-9]+)>', text)` and the global substring replacement
of `str.replace` can be embedded exactly.  The recursions are driven by a
length fuel so that every definition computes by `decide`. -/

/-- The character class `[A-Z0-9]`. -/
def idChar (c : Char) : Bool :=
  ('A' ≤ c && c ≤ 'Z') || ('0' ≤ c && c ≤ '9')

/-- The literal text `<@ident>` of a mention token. -/
def tokStr (ident : List Char) : List Char :=
  '<' :: '@' :: (ident ++ ['>'])

/-- Match the regex `<@(U[A-Z0-9]+)>` at the head of the text: `<`, `@`, `U`,
then a maximal non-empty run of `[A-Z0-9]`, then `>`.  Returns the captured
id (the `U` and the run) and the text after the token. -/
def parseMention : List Char → Option (List Char × List Char)
  | c1 :: c2 :: c3 :: rest =>
    if c1 = '<' ∧ c2 = '@' ∧ c3 = 'U' ∧ (rest.dropWhile idChar).head? = some '>' ∧
        (rest.takeWhile idChar).isEmpty = false then
      some ('U' :: rest.takeWhile idChar, (rest.dropWhile idChar).tail)
    else none
  | _ => none

/-- `re.findall`'s scan: at each position try a match; on success record the
capture and resume after the token, otherwise advance one character. -/
def findMentionsF : Nat → List Char → List (List Char)
  | 0, _ => []
  | _, [] => []
  | fuel + 1, c :: rest =>
    match parseMention (c :: rest) with
    | some (ident, after) => ident :: findMentionsF fuel after
    | none => findMentionsF fuel rest

/-- `re.findall(r'<@(U[A-Z0-9]+)>', text)`. -/
def findMentions (l : List Char) : List (List Char) :=
  findMentionsF l.length l

/-- Does `pat` occur at the head of the text? -/
def startsWithB : List Char → List Char → Bool
  | [], _ => true
  | _ :: _, [] => false
  | a :: x, b :: y => a == b && startsWithB x y

/-- The scan of `str.replace`: replace non-overlapping occurrences of
`p :: ps` left to right. -/
def replaceAllF (p : Char) (ps : List Char) (repl : List Char) : Nat → List Char → List Char
  | _, [] => []
  | 0, s => s
  | fuel + 1, c :: rest =>
    if startsWithB (p :: ps) (c :: rest) then
      repl ++ replaceAllF p ps repl (fuel - ps.length) (rest.drop ps.length)
    else c :: replaceAllF p ps repl fuel rest

/-- Python's `s.replace(pat, repl)` for a non-empty `pat` (every pattern the
code passes is a `<@...>` token, hence non-empty; an empty pattern is
returned untouched). -/
def replaceAll (s pat repl : List Char) : List Char :=
  match pat with
  | [] => s
  | p :: ps => replaceAllF p ps repl s.length s

/-- Lookup in an association list, the embedding of a Python dict read. -/
def alookup {β : Type} (m : List (String × β)) (k : String) : Option β :=
  match m with
  | [] => none
  | (k', v) :: rest => if k' = k then some v else alookup rest k

/-- The replacement decision of the loop body (`collect_messages.py:19-22`):
the id must be a cache key, and the chained name
(`display_name or real_name or name`) must be truthy and not `'Unknown'`;
the result is the name substituted after the `@`. -/
def mentionRepl (cache : List (String × UserInfo)) (uid : String) : Option String :=
  match alookup cache uid with
  | none => none
  | some u =>
    let nm := pickUserName u
    if nm ≠ "" ∧ nm ≠ "Unknown" then some nm else none

/-- One iteration of `for user_id in user_mentions` (`collect_messages.py:18-22`):
when the id resolves, globally replace `<@id>` by `@name` in the current
text. -/
def resolveStep (cache : List (String × UserInfo)) (t ident : List Char) : List Char :=
  match mentionRepl cache ident.asString with
  | none => t
  | some nm => replaceAll t (tokStr ident) ('@' :: nm.toList)

/-- The body of `resolve_user_mentions` on a non-empty text: fold the
sequential replacements over the ids found in the original text. -/
def resolveChars (cache : List (String × UserInfo)) (text : List Char) : List Char :=
  (findMentions text).foldl (resolveStep cache) text

/-- `resolve_user_mentions(text, user_cache)` on a string (the `if not text`
guard returns an empty text unchanged). -/
def resolveTextStr (cache : List (String × UserInfo)) (t : String) : String :=
  if t = "" then t else (resolveChars cache t.toList).asString

/-- `resolve_user_mentions` (`collect_messages.py:10-24`, identical copy at
`collect_all_history.py:10-24`); a `None` text is `Option.none` and is
returned unchanged. -/
def resolve_user_mentions (text : Option String) (cache : List (String × UserInfo)) :
    Option String :=
  match text with
  | none => none
  | some t => some (resolveTextStr cache t)

/-- Modelled from the claim's words: a single left-to-right pass that
replaces each mention token whose id resolves (under the supplied resolution
rule) by `@` and the resolved name, and leaves every other token and all
remaining text unchanged. -/
def onePassF (repl : List Char → Option String) : Nat → List Char → List Char
  | 0, s => s
  | _, [] => []
  | fuel + 1, c :: rest =>
    match parseMention (c :: rest) with
    | some (ident, after) =>
      (match repl ident with
       | some nm => '@' :: nm.toList
       | none => tokStr ident) ++ onePassF repl fuel after
    | none => c :: onePassF repl fuel rest

/-- One-pass simultaneous substitution of the whole text. -/
def onePass (repl : List Char → Option String) (text : List Char) : List Char :=
  onePassF repl text.length text

/-- The resolution rule the code applies to a captured id. -/
def cacheRepl (cache : List (String × UserInfo)) : List Char → Option String :=
  fun ident => mentionRepl cache ident.asString

/-- The one-pass substitution using the code's own name selection
(`display_name or real_name or name`, then the truthiness test). -/
def simulResolveStr (cache : List (String × UserInfo)) (t : String) : String :=
  (onePass (cacheRepl cache) t.toList).asString

/-- Truthy and not `'Unknown'`. -/
def claimOk (s : String) : Bool :=
  !(s == "") && !(s == "Unknown")

/-- Modelled from the claim's words: "a display_name, real_name, or name that
is non-empty and not 'Unknown'" — the first of the three fields that
satisfies the test. -/
def claimPickName (u : UserInfo) : Option String :=
  if claimOk u.display_name then some u.display_name
  else if claimOk u.real_name then some u.real_name
  else if claimOk u.name then some u.name
  else none

/-- The substitution described by the claim verbatim: one-pass, replacing a
token whose id is a cache key holding some usable name. -/
def claimResolveStr (cache : List (String × UserInfo)) (t : String) : String :=
  (onePass (fun ident => (alookup cache ident.asString).bind claimPickName) t.toList).asString

/-- The token decomposition of a text induced by the regex scan. -/
inductive Item
  | chr (c : Char)
  | tok (ident : List Char)
deriving DecidableEq, Repr

/-- The scan of the text into plain characters and mention tokens. -/
def tokenizeF : Nat → List Char → List Item
  | 0, _ => []
  | _, [] => []
  | fuel + 1, c :: rest =>
    match parseMention (c :: rest) with
    | some (ident, after) => .tok ident :: tokenizeF fuel after
    | none => .chr c :: tokenizeF fuel rest

/-- The token decomposition of a text. -/
def tokenize (l : List Char) : List Item :=
  tokenizeF l.length l

/-- The text contributed by one item after the tokens with ids in `P` have
been replaced (when they resolve). -/
def segShape (repl : List Char → Option String) (P : List (List Char)) : Item → List Char
  | .chr c => [c]
  | .tok ident =>
    if ident ∈ P then
      match repl ident with
      | some nm => '@' :: nm.toList
      | none => tokStr ident
    else tokStr ident

/-- The text after the tokens with ids in `P` have been replaced. -/
def renderW (repl : List Char → Option String) (P : List (List Char))
    (items : List Item) : List Char :=
  items.flatMap (segShape repl P)

/-- The text of an item list with no replacements applied. -/
def renderPlain (items : List Item) : List Char :=
  items.flatMap (fun i =>
    match i with
    | .chr c => [c]
    | .tok ident => tokStr ident)

/-- The text of an item list with every resolvable token replaced. -/
def renderFull (repl : List Char → Option String) (items : List Item) : List Char :=
  items.flatMap (fun i =>
    match i with
    | .chr c => [c]
    | .tok ident =>
      match repl ident with
      | some nm => '@' :: nm.toList
      | none => tokStr ident)

/-- The captured ids of an item list, in order. -/
def tokenIds (items : List Item) : List (List Char) :=
  items.flatMap (fun i =>
    match i with
    | .chr _ => []
    | .tok ident => [ident])

/-- A capture the regex can produce: `U` followed by at least one more
`[A-Z0-9]` character. -/
def validId (ident : List Char) : Prop :=
  2 ≤ ident.length ∧ ident.head? = some 'U' ∧ ∀ c ∈ ident, idChar c = true

/-- The invariant of the scan: every token is a valid capture and no plain
character starts a token in the original text. -/
def scanOk : List Item → Prop
  | [] => True
  | .tok ident :: rest => validId ident ∧ scanOk rest
  | .chr c :: rest => parseMention (c :: renderPlain rest) = none ∧ scanOk rest

/-- A replacement name that cannot recombine with surrounding text into a new
mention token: it contains no `<` and does not begin with `U`. -/
def tameNameB (nm : String) : Bool :=
  !(nm.toList.contains '<') && !(nm.toList.head? == some 'U')

/-- Every name the cache can substitute is tame. -/
def tameCacheB (cache : List (String × UserInfo)) : Bool :=
  cache.all (fun p => tameNameB (pickUserName p.2))

/-! ### `collect_messages.py`: `collect_all_messages`

The Slack reads are supplied as oracles: `fetchHistory` is
`get_channel_history` for a channel id (which may raise, carrying the
exception text), `fetchReplies` is `get_thread_replies` (total, per its own
error handling), `userInfoFn` is `get_user_info` (total likewise). -/

/-- A raw Slack message as the collection script reads it (`msg.get(...)`);
the `type` key is embedded as `mtype`. -/
structure RawMsg where
  ts : String
  user : Option String
  text : String
  mtype : Option String
  subtype : Option String
  thread_ts : Option String
  reply_count : Nat
deriving DecidableEq, Repr

/-- A processed reply dict (`collect_messages.py:139-147`). -/
structure ProcReply where
  timestamp : String
  user_id : Option String
  user_name : String
  text : String
  mtype : Option String
  subtype : Option String
  thread_ts : Option String
deriving DecidableEq, Repr

/-- A processed message dict (`collect_messages.py:92-102`). -/
structure ProcMsg where
  timestamp : String
  user_id : Option String
  user_name : String
  text : String
  mtype : Option String
  subtype : Option String
  thread_ts : Option String
  reply_count : Nat
  replies : List ProcReply
deriving DecidableEq, Repr

/-- One value of the output's `channels` mapping: a successful entry
(`collect_messages.py:155-160`, `error = none`) or an error entry
(`collect_messages.py:173-187`, with `message_count` 0 and no messages; the
success-only `thread_replies_count` key is embedded as 0 there). -/
structure ChannelEntry where
  id : String
  error : Option String
  message_count : Nat
  thread_replies_count : Nat
  messages : List ProcMsg
deriving DecidableEq, Repr

/-- Cache a user the first time it is seen (`collect_messages.py:77-80`);
Python dict insertion appends the new key at the end. -/
def cacheAdd (userInfoFn : String → UserInfo) (cache : List (String × UserInfo))
    (uid : Option String) : List (String × UserInfo) :=
  match uid with
  | none => cache
  | some u =>
    match alookup cache u with
    | some _ => cache
    | none => cache ++ [(u, userInfoFn u)]

/-- The `user_name` value stored for a message (`collect_messages.py:76-95`):
`None` (falling back to `"Unknown"`) without an author id, else the chained
name of the cached info with the same fallback. -/
def cachedUserName (cache : List (String × UserInfo)) (uid : Option String) : String :=
  match uid with
  | none => "Unknown"
  | some u =>
    match alookup cache u with
    | none => "Unknown"
    | some info => orElseStr (pickUserName info) "Unknown"

/-- Process one raw reply (`collect_messages.py:118-148`), threading the user
cache. -/
def processReply (userInfoFn : String → UserInfo) (cache : List (String × UserInfo))
    (r : RawMsg) : ProcReply × List (String × UserInfo) :=
  let cache' := cacheAdd userInfoFn cache r.user
  (⟨r.ts, r.user, cachedUserName cache' r.user, resolveTextStr cache' r.text,
    r.mtype, r.subtype, r.thread_ts⟩, cache')

/-- Process one raw top-level message (`collect_messages.py:71-153`):
resolve its author and mentions, and when `reply_count > 0` fetch and process
its thread replies. -/
def processMsg (userInfoFn : String → UserInfo) (fetchReplies : String → List RawMsg)
    (cache : List (String × UserInfo)) (m : RawMsg) :
    ProcMsg × List (String × UserInfo) :=
  let cache1 := cacheAdd userInfoFn cache m.user
  let uname := cachedUserName cache1 m.user
  let rtext := resolveTextStr cache1 m.text
  if 0 < m.reply_count then
    let step := fun (acc : List ProcReply × List (String × UserInfo)) r =>
      let (pr, c') := processReply userInfoFn acc.2 r
      (acc.1 ++ [pr], c')
    let (procs, cache2) := (fetchReplies m.ts).foldl step ([], cache1)
    (⟨m.ts, m.user, uname, rtext, m.mtype, m.subtype, m.thread_ts, m.reply_count, procs⟩,
      cache2)
  else
    (⟨m.ts, m.user, uname, rtext, m.mtype, m.subtype, m.thread_ts, m.reply_count, []⟩,
      cache1)

/-- One step of the per-channel message loop: append the processed message,
thread the cache. -/
def processMsgStep (userInfoFn : String → UserInfo) (fetchReplies : String → List RawMsg)
    (acc : List ProcMsg × List (String × UserInfo)) (m : RawMsg) :
    List ProcMsg × List (String × UserInfo) :=
  (acc.1 ++ [(processMsg userInfoFn fetchReplies acc.2 m).1],
    (processMsg userInfoFn fetchReplies acc.2 m).2)

/-- Process all top-level messages of one channel in order. -/
def processChannel (userInfoFn : String → UserInfo) (fetchReplies : String → List RawMsg)
    (cache : List (String × UserInfo)) (msgs : List RawMsg) :
    List ProcMsg × List (String × UserInfo) :=
  msgs.foldl (processMsgStep userInfoFn fetchReplies) ([], cache)

/-- Does the needle occur anywhere in the haystack (`'x' in str(e)`)? -/
def containsSubB (needle : List Char) : List Char → Bool
  | [] => needle.isEmpty
  | c :: rest => startsWithB needle (c :: rest) || containsSubB needle rest

/-- The `error` value stored for a failed channel
(`collect_messages.py:170-187`). -/
def exnEntryError (e : String) : String :=
  if containsSubB "not_in_channel".toList e.toList then "bot_not_in_channel" else e

/-- Python dict assignment `d[k] = v`: replace in place, or append a new
key. -/
def dictInsert (m : List (String × ChannelEntry)) (k : String) (v : ChannelEntry) :
    List (String × ChannelEntry) :=
  match m with
  | [] => [(k, v)]
  | (k', v') :: rest => if k' = k then (k, v) :: rest else (k', v') :: dictInsert rest k v

/-- The entry written for one channel given its fetch outcome and the cache
state, together with the cache afterwards. -/
def channelResult (userInfoFn : String → UserInfo)
    (fetchReplies : String → String → List RawMsg) (cache : List (String × UserInfo))
    (cid : String) (outcome : Except String (List RawMsg)) :
    ChannelEntry × List (String × UserInfo) :=
  match outcome with
  | .error e => (⟨cid, some (exnEntryError e), 0, 0, []⟩, cache)
  | .ok msgs =>
    (⟨cid, none, msgs.length,
      (((processChannel userInfoFn (fetchReplies cid) cache msgs).1.map
        (fun p => p.replies.length)).sum),
      (processChannel userInfoFn (fetchReplies cid) cache msgs).1⟩,
     (processChannel userInfoFn (fetchReplies cid) cache msgs).2)

/-- One iteration of the channel loop: write (or overwrite) the channel's
entry and thread the cache. -/
def collectStep (fetchHistory : String → Except String (List RawMsg))
    (fetchReplies : String → String → List RawMsg) (userInfoFn : String → UserInfo)
    (acc : List (String × ChannelEntry) × List (String × UserInfo))
    (ch : String × String) :
    List (String × ChannelEntry) × List (String × UserInfo) :=
  (dictInsert acc.1 ch.1
    (channelResult userInfoFn fetchReplies acc.2 ch.2 (fetchHistory ch.2)).1,
   (channelResult userInfoFn fetchReplies acc.2 ch.2 (fetchHistory ch.2)).2)

/-- `collect_all_messages` (`collect_messages.py:26-208`): iterate over the
channels (as `(name, id)` pairs), collecting each one inside a `try` so that
a failure only writes an error entry; returns the `channels` mapping and the
final user cache (`collect_all_history.py:65-191` has the same per-channel
structure). -/
def collect_all_messages (channels : List (String × String))
    (fetchHistory : String → Except String (List RawMsg))
    (fetchReplies : String → String → List RawMsg)
    (userInfoFn : String → UserInfo) :
    List (String × ChannelEntry) × List (String × UserInfo) :=
  channels.foldl (collectStep fetchHistory fetchReplies userInfoFn) ([], [])

/-! ## Theorems -/

/-! ### C1: the retry loop of the channel-history pager -/

theorem retryAttempts_succ_ok (α : Type) (outcomes : Nat → Except SlackErr α)
    (fuel i : Nat) (p : α) (hok : outcomes i = .ok p) :
    retryAttempts outcomes (fuel + 1) i = .ok p := by
  simp [retryAttempts, hok]

theorem retryAttempts_succ_rl (α : Type) (outcomes : Nat → Except SlackErr α)
    (fuel i : Nat) (e : SlackErr) (he : outcomes i = .error e)
    (hc : e.code = "rate_limited") :
    retryAttempts outcomes (fuel + 1) i = retryAttempts outcomes fuel (i + 1) := by
  simp [retryAttempts, he, hc]

theorem retryAttempts_succ_other (α : Type) (outcomes : Nat → Except SlackErr α)
    (fuel i : Nat) (e : SlackErr) (he : outcomes i = .error e)
    (hc : ¬e.code = "rate_limited") :
    retryAttempts outcomes (fuel + 1) i = .error e := by
  simp [retryAttempts, he, hc]

/-- C1: each page fetch runs a retry loop of at most three attempts: an
attempt reached after only rate-limited failures succeeds or propagates its
outcome; a non-rate-limited `SlackApiError` is propagated immediately; and
when all three attempts are rate-limited the loop raises a `SlackApiError`
whose error field is `rate_limited`. -/
theorem claim_C1 (α : Type) (outcomes : Nat → Except SlackErr α) :
    (∀ k p, k < 3 → outcomes k = .ok p →
      (∀ j, j < k → ∃ e, outcomes j = .error e ∧ e.code = "rate_limited") →
      fetchPageWithRetry outcomes = .ok p) ∧
    (∀ k e, k < 3 → outcomes k = .error e → ¬e.code = "rate_limited" →
      (∀ j, j < k → ∃ e', outcomes j = .error e' ∧ e'.code = "rate_limited") →
      fetchPageWithRetry outcomes = .error e) ∧
    ((∀ j, j < 3 → ∃ e, outcomes j = .error e ∧ e.code = "rate_limited") →
      fetchPageWithRetry outcomes = .error ⟨"rate_limited"⟩) := by
  refine ⟨?_, ?_, ?_⟩
  · intro k p hk hok hprev
    interval_cases k
    · exact retryAttempts_succ_ok α outcomes 2 0 p hok
    · obtain ⟨e0, he0, hc0⟩ := hprev 0 (by omega)
      exact (retryAttempts_succ_rl α outcomes 2 0 e0 he0 hc0).trans
        (retryAttempts_succ_ok α outcomes 1 1 p hok)
    · obtain ⟨e0, he0, hc0⟩ := hprev 0 (by omega)
      obtain ⟨e1, he1, hc1⟩ := hprev 1 (by omega)
      exact (retryAttempts_succ_rl α outcomes 2 0 e0 he0 hc0).trans
        ((retryAttempts_succ_rl α outcomes 1 1 e1 he1 hc1).trans
          (retryAttempts_succ_ok α outcomes 0 2 p hok))
  · intro k e hk he hcode hprev
    interval_cases k
    · exact retryAttempts_succ_other α outcomes 2 0 e he hcode
    · obtain ⟨e0, he0, hc0⟩ := hprev 0 (by omega)
      exact (retryAttempts_succ_rl α outcomes 2 0 e0 he0 hc0).trans
        (retryAttempts_succ_other α outcomes 1 1 e he hcode)
    · obtain ⟨e0, he0, hc0⟩ := hprev 0 (by omega)
      obtain ⟨e1, he1, hc1⟩ := hprev 1 (by omega)
      exact (retryAttempts_succ_rl α outcomes 2 0 e0 he0 hc0).trans
        ((retryAttempts_succ_rl α outcomes 1 1 e1 he1 hc1).trans
          (retryAttempts_succ_other α outcomes 0 2 e he hcode))
  · intro hall
    obtain ⟨e0, he0, hc0⟩ := hall 0 (by omega)
    obtain ⟨e1, he1, hc1⟩ := hall 1 (by omega)
    obtain ⟨e2, he2, hc2⟩ := hall 2 (by omega)
    exact (retryAttempts_succ_rl α outcomes 2 0 e0 he0 hc0).trans
      ((retryAttempts_succ_rl α outcomes 1 1 e1 he1 hc1).trans
        ((retryAttempts_succ_rl α outcomes 0 2 e2 he2 hc2).trans rfl))

/-- Concrete instance of C1: one rate-limited failure, then a successful
page. -/
theorem claim_C1_witness :
    fetchPageWithRetry
      (fun i => if i = 0 then (.error ⟨"rate_limited"⟩ : Except SlackErr Nat) else .ok 7) =
      .ok 7 := by
  refine (claim_C1 Nat _).1 1 7 (by omega) rfl ?_
  intro j hj
  interval_cases j
  exact ⟨⟨"rate_limited"⟩, rfl, rfl⟩

/-! ### C2: pipeline step order and abort behaviour -/

/-- C2: the driver runs collect, summarize, post, forward in that fixed order
(every run executes a prefix of that sequence); a failure of step 1, 2 or 3
aborts the run before any later step and without the completion report, while
a failure of step 4 still reaches the completion report. -/
theorem claim_C2 : ∀ s1 s2 s3 s4 : Bool,
    ((pipelineMain s1 s2 s3 s4).executed <+:
      [Step.collect, Step.summarize, Step.post, Step.forward]) ∧
    (s1 = false → pipelineMain s1 s2 s3 s4 = ⟨[Step.collect], false⟩) ∧
    (s1 = true → s2 = false →
      pipelineMain s1 s2 s3 s4 = ⟨[Step.collect, Step.summarize], false⟩) ∧
    (s1 = true → s2 = true → s3 = false →
      pipelineMain s1 s2 s3 s4 = ⟨[Step.collect, Step.summarize, Step.post], false⟩) ∧
    (s1 = true → s2 = true → s3 = true →
      pipelineMain s1 s2 s3 s4 =
        ⟨[Step.collect, Step.summarize, Step.post, Step.forward], true⟩) := by
  decide

/-- Concrete instance of C2: steps 1-3 succeed and step 4 fails, yet the
forward step ran and the completion report was reached. -/
theorem claim_C2_witness :
    pipelineMain true true true false =
      ⟨[Step.collect, Step.summarize, Step.post, Step.forward], true⟩ :=
  (claim_C2 true true true false).2.2.2.2 rfl rfl rfl

/-! ### C8: `get_thread_replies` is total over API errors -/

/-- C8: `get_thread_replies` returns the fetched list with its first element
removed on success (the empty list when at most one message was fetched), and
the empty list on any `SlackApiError`; an error is therefore
indistinguishable from a reply-free thread. -/
theorem claim_C8 (α : Type) :
    (∀ l : List α, get_thread_replies (.ok l) = l.drop 1) ∧
    (∀ l : List α, l.length ≤ 1 → get_thread_replies (.ok l) = []) ∧
    (∀ e : SlackErr, get_thread_replies (.error e : Except SlackErr (List α)) = []) ∧
    (∀ (e : SlackErr) (parent : α),
      get_thread_replies (.error e) = get_thread_replies (.ok [parent])) := by
  refine ⟨?_, ?_, ?_, ?_⟩
  · intro l
    match l with
    | [] => rfl
    | [a] => rfl
    | a :: b :: t => simp [get_thread_replies]
  · intro l hl
    match l, hl with
    | [], _ => rfl
    | [a], _ => rfl
  · intro e
    rfl
  · intro e parent
    rfl

/-- Concrete instance of C8: a two-message fetch keeps only the reply, a
single-message fetch yields no replies. -/
theorem claim_C8_witness :
    get_thread_replies (Except.ok ([3, 4] : List Nat)) = [4] ∧
    get_thread_replies (Except.ok ([3] : List Nat)) = [] :=
  ⟨(claim_C8 Nat).1 [3, 4], (claim_C8 Nat).2.1 [3] (by decide)⟩

/-! ### C9: `get_user_info` never raises and user names always resolve -/

/-- C9: `get_user_info` is total over API errors: it always returns a record
with the id it was given, filling `name`, `real_name`, `display_name` with
`'Unknown'`, `'Unknown'`, `''` on failure; message processing therefore
always produces a `user_name`, falling back to `'Unknown'`. -/
theorem claim_C9 (uid : String) :
    (∀ res : Except SlackErr UserRaw, (get_user_info uid res).id = uid) ∧
    (∀ e : SlackErr,
      get_user_info uid (.error e) = ⟨uid, "Unknown", "Unknown", ""⟩) ∧
    (userNameField none = "Unknown") ∧
    (∀ e : SlackErr,
      userNameField (some (get_user_info uid (.error e))) = "Unknown") ∧
    (∀ u : UserInfo, 0 < (userNameField (some u)).length) := by
  refine ⟨?_, ?_, rfl, ?_, ?_⟩
  · intro res
    match res with
    | .ok raw => rfl
    | .error e => rfl
  · intro e
    rfl
  · intro e
    rfl
  · intro u
    simp only [userNameField, orElseStr]
    split
    · decide
    · rename_i h
      have : (pickUserName u).length ≠ 0 := by
        intro hlen
        exact h (String.ext (by simpa [String.length] using List.length_eq_zero.mp hlen))
      omega

/-- Concrete instance of C9: a failed lookup yields the placeholder record
and an `'Unknown'` user name. -/
theorem claim_C9_witness :
    get_user_info "U42" (.error ⟨"user_not_found"⟩) =
      ⟨"U42", "Unknown", "Unknown", ""⟩ ∧
    userNameField (some (get_user_info "U42" (.error ⟨"user_not_found"⟩))) = "Unknown" :=
  ⟨(claim_C9 "U42").2.1 ⟨"user_not_found"⟩, (claim_C9 "U42").2.2.2.1 ⟨"user_not_found"⟩⟩

/-! ### C5: the pagination window of `get_channel_history` -/

theorem windowScan_kept (oldest : Int) (l : List HistMsg) :
    ∀ m ∈ (windowScan oldest l).1, oldest ≤ m.ts := by
  induction l with
  | nil => simp [windowScan]
  | cons a t ih =>
    intro m hm
    by_cases h : oldest ≤ a.ts
    · simp only [windowScan, if_pos h, List.mem_cons] at hm
      rcases hm with hm | hm
      · exact hm ▸ h
      · exact ih m hm
    · simp [windowScan, if_neg h] at hm

theorem windowScan_stop (oldest : Int) (l : List HistMsg) :
    (windowScan oldest l).2 = true ↔ ∃ m ∈ l, m.ts < oldest := by
  induction l with
  | nil => simp [windowScan]
  | cons a t ih =>
    by_cases h : oldest ≤ a.ts
    · simp only [windowScan, if_pos h]
      rw [ih]
      constructor
      · rintro ⟨m, hm, hlt⟩
        exact ⟨m, List.mem_cons_of_mem a hm, hlt⟩
      · rintro ⟨m, hm, hlt⟩
        rcases List.mem_cons.mp hm with rfl | hm
        · omega
        · exact ⟨m, hm, hlt⟩
    · constructor
      · intro _
        exact ⟨a, List.mem_cons_self a t, by omega⟩
      · intro _
        simp [windowScan, if_neg h]

theorem paginateHistory_kept (oldest : Int) (pages : List HistPage) :
    ∀ m ∈ paginateHistory oldest pages, oldest ≤ m.ts := by
  induction pages with
  | nil => simp [paginateHistory]
  | cons p rest ih =>
    intro m hm
    simp only [paginateHistory] at hm
    split at hm
    · exact windowScan_kept oldest p.messages m hm
    · split at hm
      · split at hm
        · rcases List.mem_append.mp hm with hm | hm
          · exact windowScan_kept oldest p.messages m hm
          · exact ih m hm
        · exact windowScan_kept oldest p.messages m hm
      · exact windowScan_kept oldest p.messages m hm

/-- C5: every message `get_channel_history` returns has a timestamp at or
after the cutoff (call time minus `days` days); messages older than the
cutoff are never included; and as soon as a page contains an older message,
pagination stops — the result is the page's in-window prefix, independent of
any later pages. -/
theorem claim_C5 (now days : Int) (pages : List HistPage) :
    (∀ m ∈ get_channel_history now days pages, now - days * 86400 ≤ m.ts) ∧
    (∀ p rest, (∃ m ∈ p.messages, m.ts < now - days * 86400) →
      get_channel_history now days (p :: rest) =
        (windowScan (now - days * 86400) p.messages).1) ∧
    (∀ p rest rest', (∃ m ∈ p.messages, m.ts < now - days * 86400) →
      get_channel_history now days (p :: rest) =
        get_channel_history now days (p :: rest')) := by
  have hstop : ∀ (p : HistPage) (rest : List HistPage),
      (∃ m ∈ p.messages, m.ts < now - days * 86400) →
      get_channel_history now days (p :: rest) =
        (windowScan (now - days * 86400) p.messages).1 := by
    intro p rest hex
    have h2 : (windowScan (now - days * 86400) p.messages).2 = true :=
      (windowScan_stop _ _).mpr hex
    simp [get_channel_history, paginateHistory, h2]
  refine ⟨?_, hstop, ?_⟩
  · exact paginateHistory_kept (now - days * 86400) pages
  · intro p rest rest' hex
    rw [hstop p rest hex, hstop p rest' hex]

/-- Concrete instance of C5: with cutoff 913600, a page holding an in-window
message, an older message and a later in-window message stops pagination at
the older message, returning only the prefix before it. -/
theorem claim_C5_witness :
    get_channel_history 1000000 1
      [⟨[⟨913601, "a"⟩, ⟨100, "old"⟩, ⟨913700, "b"⟩], true, some "cur"⟩,
       ⟨[⟨913900, "c"⟩], false, none⟩] = [⟨913601, "a"⟩] := by
  have h := (claim_C5 1000000 1
    [⟨[⟨913601, "a"⟩, ⟨100, "old"⟩, ⟨913700, "b"⟩], true, some "cur"⟩,
     ⟨[⟨913900, "c"⟩], false, none⟩]).2.1
    ⟨[⟨913601, "a"⟩, ⟨100, "old"⟩, ⟨913700, "b"⟩], true, some "cur"⟩
    [⟨[⟨913900, "c"⟩], false, none⟩]
    ⟨⟨100, "old"⟩, by decide, by decide⟩
  exact h.trans (by decide)

/-! ### C3: chronological, reply-nested transcripts -/

instance : IsTotal Msg msgTsLe :=
  ⟨fun a b => le_total a.timestamp b.timestamp⟩

instance : IsTrans Msg msgTsLe :=
  ⟨fun _ _ _ hab hbc => le_trans hab hbc⟩

instance : IsTotal Reply replyTsLe :=
  ⟨fun a b => le_total a.timestamp b.timestamp⟩

instance : IsTrans Reply replyTsLe :=
  ⟨fun _ _ _ hab hbc => le_trans hab hbc⟩

theorem flatMap_eq_filter_flatMap {α β : Type} (p : α → Bool) (f : α → List β)
    (l : List α) (h : ∀ x, p x = false → f x = []) :
    l.flatMap f = (l.filter p).flatMap f := by
  induction l with
  | nil => rfl
  | cons a t ih =>
    by_cases hp : p a
    · simp [List.filter_cons, hp, ih]
    · have hfa : f a = [] := h a (Bool.not_eq_true _ ▸ hp)
      simp [List.filter_cons, Bool.not_eq_true _ ▸ hp, hfa, ih]

theorem flatMap_congr_mem {α β : Type} (f g : α → List β) (l : List α)
    (h : ∀ x ∈ l, f x = g x) : l.flatMap f = l.flatMap g := by
  induction l with
  | nil => rfl
  | cons a t ih =>
    simp only [List.flatMap_cons, h a (List.mem_cons_self a t)]
    rw [ih fun x hx => h x (List.mem_cons_of_mem a hx)]

/-- C3: the transcript lists exactly the non-blank messages in nondecreasing
timestamp order, each followed immediately by its own non-blank replies in
nondecreasing timestamp order and a spacing line; blank messages and blank
replies are omitted. -/
theorem claim_C3 (fmt : Int → String) (cd : ChannelData) :
    contextParts fmt cd.messages =
      (keptMessages cd.messages).flatMap
        (fun m => msgLine fmt m :: ((keptReplies m).map (replyLine fmt) ++ [""])) ∧
    (keptMessages cd.messages).Pairwise msgTsLe ∧
    (∀ m : Msg, (keptReplies m).Pairwise replyTsLe) ∧
    (∀ m ∈ keptMessages cd.messages, blankB m.text = false) ∧
    (∀ (m : Msg), ∀ r ∈ keptReplies m, blankB r.text = false) ∧
    (¬cd.messages = [] →
      prepare_channel_context fmt cd = String.intercalate "\n" (contextParts fmt cd.messages)) := by
  refine ⟨?_, ?_, ?_, ?_, ?_, ?_⟩
  · unfold contextParts keptMessages
    rw [flatMap_eq_filter_flatMap (fun m => !blankB m.text) (msgBlock fmt) _
      (by intro x hx
          have hb : blankB x.text = true := by
            cases hbx : blankB x.text with
            | false => simp [hbx] at hx
            | true => rfl
          simp [msgBlock, hb])]
    refine flatMap_congr_mem _ _ _ ?_
    intro x hx
    have hb : blankB x.text = false := by
      have := List.of_mem_filter hx
      simpa using this
    simp [msgBlock, hb]
  · exact ((List.sorted_insertionSort msgTsLe cd.messages).filter _)
  · intro m
    exact ((List.sorted_insertionSort replyTsLe m.replies).filter _)
  · intro m hm
    have := List.of_mem_filter hm
    simpa using this
  · intro m r hr
    have := List.of_mem_filter hr
    simpa using this
  · intro hne
    have : cd.messages.isEmpty = false := by
      cases h : cd.messages with
      | nil => exact absurd h hne
      | cons a t => rfl
    simp [prepare_channel_context, this]

/-- Concrete instance of C3: two out-of-order messages, a blank message and
out-of-order replies produce a sorted, nested, blank-free transcript. -/
theorem claim_C3_witness :
    prepare_channel_context (fun _ => "t")
        ⟨[⟨5, "bob", "later", []⟩, ⟨9, "eve", "  ", []⟩,
          ⟨2, "ann", "first", [⟨8, "cat", "r2"⟩, ⟨4, "dan", "r1"⟩]⟩]⟩ =
      String.intercalate "\n"
        (contextParts (fun _ => "t")
          [⟨5, "bob", "later", []⟩, ⟨9, "eve", "  ", []⟩,
           ⟨2, "ann", "first", [⟨8, "cat", "r2"⟩, ⟨4, "dan", "r1"⟩]⟩]) :=
  (claim_C3 (fun _ => "t")
    ⟨[⟨5, "bob", "later", []⟩, ⟨9, "eve", "  ", []⟩,
      ⟨2, "ann", "first", [⟨8, "cat", "r2"⟩, ⟨4, "dan", "r1"⟩]⟩]⟩).2.2.2.2.2
    (by decide)

/-! ### C6: most-recent artifact selection -/

theorem pairwise_getLast?_rel {α : Type} (r : α → α → Prop) (hrefl : ∀ a, r a a) :
    ∀ l : List α, l.Pairwise r → ∀ y, l.getLast? = some y → ∀ x ∈ l, r x y
  | [], _, y, hy => by simp at hy
  | [a], _, y, hy => by
    intro x hx
    have hya : y = a := by simpa using hy.symm
    have hxa : x = a := by simpa using hx
    rw [hya, hxa]
    exact hrefl a
  | a :: b :: t, hp, y, hy => by
    rw [List.getLast?_cons_cons] at hy
    intro x hx
    rcases List.mem_cons.mp hx with rfl | hx'
    · exact (List.pairwise_cons.mp hp).1 y (List.mem_of_getLast?_eq_some hy)
    · exact pairwise_getLast?_rel r hrefl (b :: t) (List.pairwise_cons.mp hp).2 y hy x hx'

theorem charLeB_iff_not_lex : ∀ x y : List Char,
    charLeB x y = true ↔ ¬List.Lex (· < ·) y x
  | [], y => by
    simp only [charLeB]
    constructor
    · intro _ h
      cases h
    · intro _
      trivial
  | a :: x', [] => by
    simp only [charLeB]
    constructor
    · intro h
      exact absurd h Bool.false_ne_true
    · intro h
      exact absurd List.Lex.nil h
  | a :: x', b :: y' => by
    by_cases hab : a < b
    · simp only [charLeB, if_pos hab]
      constructor
      · intro _ h
        cases h with
        | rel h' => exact absurd h' (lt_asymm hab)
        | cons h' => exact absurd hab (lt_irrefl a)
      · intro _
        trivial
    · by_cases hba : b < a
      · simp only [charLeB, if_neg hab, if_pos hba]
        constructor
        · intro h
          exact absurd h Bool.false_ne_true
        · intro h
          exact absurd (List.Lex.rel hba) h
      · have heq : a = b := le_antisymm (le_of_not_lt hba) (le_of_not_lt hab)
        subst heq
        simp only [charLeB, if_neg hab]
        rw [charLeB_iff_not_lex x' y']
        constructor
        · intro h hlex
          cases hlex with
          | rel h' => exact absurd h' hab
          | cons h' => exact h h'
        · intro h hlex
          exact h (List.Lex.cons hlex)

/-- `strLe` is the standard lexicographic order on strings. -/
theorem strLe_iff (a b : String) : strLe a b ↔ a ≤ b := by
  unfold strLe
  rw [charLeB_iff_not_lex]
  constructor
  · intro h
    by_contra hlt
    push_neg at hlt
    exact h (String.lt_iff_toList_lt.mp hlt)
  · intro hle hlex
    exact absurd (String.lt_iff_toList_lt.mpr hlex) (not_lt.mpr hle)

instance : IsTotal String strLe :=
  ⟨fun a b => by
    rcases le_total a b with h | h
    · exact Or.inl ((strLe_iff a b).mpr h)
    · exact Or.inr ((strLe_iff b a).mpr h)⟩

instance : IsTrans String strLe :=
  ⟨fun a b c h1 h2 =>
    (strLe_iff a c).mpr (le_trans ((strLe_iff a b).mp h1) ((strLe_iff b c).mp h2))⟩

theorem latestByName_spec (pre suf : String) (files : List String) (g : String)
    (hg : latestByName pre suf files = some g) :
    g ∈ files ∧ startsWithName pre g = true ∧ endsWithName suf g = true ∧
      ∀ f ∈ files, startsWithName pre f = true → endsWithName suf f = true → f ≤ g := by
  unfold latestByName at hg
  have hsorted := List.sorted_insertionSort strLe
    (files.filter (fun f => startsWithName pre f && endsWithName suf f))
  have hperm := List.perm_insertionSort strLe
    (files.filter (fun f => startsWithName pre f && endsWithName suf f))
  have hmem := List.mem_of_getLast?_eq_some hg
  have hginfl := hperm.mem_iff.mp hmem
  have hgfilter := List.mem_filter.mp hginfl
  have hparts : startsWithName pre g = true ∧ endsWithName suf g = true := by
    simpa using hgfilter.2
  refine ⟨hgfilter.1, hparts.1, hparts.2, ?_⟩
  intro f hf hsw hew
  have hffl : f ∈ files.filter (fun f => startsWithName pre f && endsWithName suf f) :=
    List.mem_filter.mpr ⟨hf, by rw [hsw, hew]; rfl⟩
  exact (strLe_iff f g).mp (pairwise_getLast?_rel strLe
    (fun a => (strLe_iff a a).mpr (le_refl a)) _ hsorted g hg f (hperm.mem_iff.mpr hffl))

theorem latestByName_none (pre suf : String) (files : List String) :
    latestByName pre suf files = none ↔
      files.filter (fun f => startsWithName pre f && endsWithName suf f) = [] := by
  unfold latestByName
  rw [List.getLast?_eq_none_iff]
  have hperm := List.perm_insertionSort strLe
    (files.filter (fun f => startsWithName pre f && endsWithName suf f))
  constructor
  · intro h
    rw [h] at hperm
    exact List.Perm.eq_nil hperm.symm
  · intro h
    rw [h]
    rfl

theorem maxByMtime_spec : ∀ (rest : List DataFile) (f : DataFile),
    maxByMtime f rest ∈ f :: rest ∧
      ∀ g ∈ f :: rest, g.mtime ≤ (maxByMtime f rest).mtime
  | [], f => by
    constructor
    · exact List.mem_cons_self f []
    · intro g hg
      simp at hg
      subst hg
      exact le_refl _
  | g :: rest, f => by
    have hstep : maxByMtime f (g :: rest) =
        maxByMtime (if f.mtime < g.mtime then g else f) rest := rfl
    have ih := maxByMtime_spec rest (if f.mtime < g.mtime then g else f)
    rw [hstep]
    constructor
    · rcases List.mem_cons.mp ih.1 with heq | hmem
      · rw [heq]
        split
        · exact List.mem_cons_of_mem f (List.mem_cons_self g rest)
        · exact List.mem_cons_self f (g :: rest)
      · exact List.mem_cons_of_mem f (List.mem_cons_of_mem g hmem)
    · have hself := ih.2 (if f.mtime < g.mtime then g else f)
        (List.mem_cons_self _ rest)

      intro x hx
      rcases List.mem_cons.mp hx with rfl | hx'
      · refine le_trans ?_ hself
        split
        · rename_i hlt
          exact le_of_lt hlt
        · exact le_refl _
      · rcases List.mem_cons.mp hx' with rfl | hx''
        · refine le_trans ?_ hself
          split
          · exact le_refl _
          · rename_i hnlt
            omega
        · exact ih.2 x (List.mem_cons_of_mem _ hx'')

theorem digit_bounds (c : Char) (h : isDigitCh c = true) :
    48 ≤ c.toNat ∧ c.toNat ≤ 57 := by
  have h' : ('0' ≤ c) ∧ (c ≤ '9') := by simpa [isDigitCh] using h
  exact ⟨h'.1, h'.2⟩

theorem digitsNum_lt_pow (l : List Char) (h : ∀ c ∈ l, isDigitCh c = true) :
    digitsNum l < 10 ^ l.length := by
  induction l with
  | nil => simp [digitsNum]
  | cons c t ih =>
    have hc := digit_bounds c (h c (List.mem_cons_self c t))
    have ht := ih (fun x hx => h x (List.mem_cons_of_mem c hx))
    have hd : digitVal c ≤ 9 := by unfold digitVal; omega
    have h1 : digitVal c * 10 ^ t.length ≤ 9 * 10 ^ t.length :=
      Nat.mul_le_mul_right _ hd
    have h2 : 10 ^ (t.length + 1) = 9 * 10 ^ t.length + 10 ^ t.length := by ring
    simp only [digitsNum, List.length_cons]
    omega

theorem digit_lt_iff (c d : Char) (hc : isDigitCh c = true) (hd : isDigitCh d = true) :
    c < d ↔ digitVal c < digitVal d := by
  have hcb := digit_bounds c hc
  have hdb := digit_bounds d hd
  constructor
  · intro h
    have h' : c.toNat < d.toNat := h
    unfold digitVal
    omega
  · intro h
    unfold digitVal at h
    show c.toNat < d.toNat
    omega

theorem digit_eq_of_val (c d : Char) (hc : isDigitCh c = true) (hd : isDigitCh d = true)
    (h : digitVal c = digitVal d) : c = d := by
  have hcb := digit_bounds c hc
  have hdb := digit_bounds d hd
  have h' : c.toNat = d.toNat := by unfold digitVal at h; omega
  exact Char.eq_of_val_eq (UInt32.toNat.inj h')

theorem digitsNum_append (a u : List Char) :
    digitsNum (a ++ u) = digitsNum a * 10 ^ u.length + digitsNum u := by
  induction a with
  | nil => simp [digitsNum]
  | cons c t ih =>
    simp only [List.cons_append, digitsNum, ih, List.length_append]
    have hlen : (t.append u).length = t.length + u.length := List.length_append t u
    have ih' : digitsNum (t.append u) = digitsNum t * 10 ^ u.length + digitsNum u := ih
    rw [hlen, pow_add, ih']
    ring

theorem digitsNum_inj : ∀ a b : List Char, a.length = b.length →
    (∀ c ∈ a, isDigitCh c = true) → (∀ c ∈ b, isDigitCh c = true) →
    digitsNum a = digitsNum b → a = b
  | [], [], _, _, _, _ => rfl
  | [], _ :: _, hlen, _, _, _ => by simp at hlen
  | _ :: _, [], hlen, _, _, _ => by simp at hlen
  | c :: a', d :: b', hlen, ha, hb, heq => by
    have hca := ha c (List.mem_cons_self c a')
    have hdb := hb d (List.mem_cons_self d b')
    have hlen' : a'.length = b'.length := by simpa using hlen
    have hba := digitsNum_lt_pow a' (fun z hz => ha z (List.mem_cons_of_mem c hz))
    have hbb := digitsNum_lt_pow b' (fun z hz => hb z (List.mem_cons_of_mem d hz))
    simp only [digitsNum] at heq
    rw [hlen'] at heq hba
    have hvals : digitVal c = digitVal d := by
      rcases Nat.lt_trichotomy (digitVal c) (digitVal d) with h | h | h
      · exfalso
        have h1 : (digitVal c + 1) * 10 ^ b'.length ≤ digitVal d * 10 ^ b'.length :=
          Nat.mul_le_mul_right _ (by omega)
        have h2 : (digitVal c + 1) * 10 ^ b'.length =
            digitVal c * 10 ^ b'.length + 10 ^ b'.length := by ring
        omega
      · exact h
      · exfalso
        have h1 : (digitVal d + 1) * 10 ^ b'.length ≤ digitVal c * 10 ^ b'.length :=
          Nat.mul_le_mul_right _ (by omega)
        have h2 : (digitVal d + 1) * 10 ^ b'.length =
            digitVal d * 10 ^ b'.length + 10 ^ b'.length := by ring
        omega
    have hcd : c = d := digit_eq_of_val c d hca hdb hvals
    have htails : a' = b' := by
      refine digitsNum_inj a' b' hlen' (fun z hz => ha z (List.mem_cons_of_mem c hz))
        (fun z hz => hb z (List.mem_cons_of_mem d hz)) ?_
      rw [hvals] at heq
      omega
    rw [hcd, htails]

theorem lex_of_digitsNum_lt : ∀ a b x y : List Char, a.length = b.length →
    (∀ c ∈ a, isDigitCh c = true) → (∀ c ∈ b, isDigitCh c = true) →
    digitsNum a < digitsNum b → List.Lex (· < ·) (a ++ x) (b ++ y)
  | [], [], _, _, _, _, _, hlt => by simp [digitsNum] at hlt
  | [], _ :: _, _, _, hlen, _, _, _ => by simp at hlen
  | _ :: _, [], _, _, hlen, _, _, _ => by simp at hlen
  | c :: a', d :: b', x, y, hlen, ha, hb, hlt => by
    have hca := ha c (List.mem_cons_self c a')
    have hdb := hb d (List.mem_cons_self d b')
    have hlen' : a'.length = b'.length := by simpa using hlen
    rcases lt_trichotomy c d with h | h | h
    · exact List.Lex.rel h
    · subst h
      have ha' := fun z hz => ha z (List.mem_cons_of_mem c hz)
      have hb' := fun z hz => hb z (List.mem_cons_of_mem c hz)
      have hnum : digitsNum a' < digitsNum b' := by
        simp only [digitsNum] at hlt
        rw [hlen'] at hlt
        omega
      exact List.Lex.cons (lex_of_digitsNum_lt a' b' x y hlen' ha' hb' hnum)
    · exfalso
      have hdc : digitVal d < digitVal c := (digit_lt_iff d c hdb hca).mp h
      have hbd := digitsNum_lt_pow b' (fun z hz => hb z (List.mem_cons_of_mem d hz))
      simp only [digitsNum] at hlt
      rw [hlen'] at hlt
      have h1 : (digitVal d + 1) * 10 ^ b'.length ≤ digitVal c * 10 ^ b'.length :=
        Nat.mul_le_mul_right _ (by omega)
      have h2 : (digitVal d + 1) * 10 ^ b'.length =
          digitVal d * 10 ^ b'.length + 10 ^ b'.length := by ring
      omega

theorem lex_append_left_of_lex {r : Char → Char → Prop} :
    ∀ p u v : List Char, List.Lex r u v → List.Lex r (p ++ u) (p ++ v)
  | [], _, _, h => h
  | c :: p', u, v, h => List.Lex.cons (lex_append_left_of_lex p' u v h)

theorem stampValue_eq (pre suf name : String) (st d1 d2 : List Char)
    (hname : name.toList = pre.toList ++ st ++ suf.toList)
    (hst : st = d1 ++ '_' :: d2)
    (hd1 : ∀ c ∈ d1, isDigitCh c = true) (hd2 : ∀ c ∈ d2, isDigitCh c = true)
    (hpre : ∀ c ∈ pre.toList, isDigitCh c = false)
    (hsuf : ∀ c ∈ suf.toList, isDigitCh c = false) :
    stampValue name = digitsNum (d1 ++ d2) := by
  unfold stampValue
  rw [hname, hst]
  rw [List.filter_append, List.filter_append]
  have h1 : pre.toList.filter isDigitCh = [] := by
    rw [List.filter_eq_nil_iff]
    intro a ha
    rw [hpre a ha]
    exact Bool.false_ne_true
  have h2 : suf.toList.filter isDigitCh = [] := by
    rw [List.filter_eq_nil_iff]
    intro a ha
    rw [hsuf a ha]
    exact Bool.false_ne_true
  have h3 : (d1 ++ '_' :: d2).filter isDigitCh = d1 ++ d2 := by
    rw [List.filter_append, List.filter_cons]
    have hund : isDigitCh '_' = false := by decide
    rw [hund]
    simp only [Bool.false_eq_true, if_false]
    rw [List.filter_eq_self.mpr hd1, List.filter_eq_self.mpr hd2]
  rw [h1, h2, h3]
  simp

theorem stampValue_le_of_le (pre suf f g : String)
    (hpre : ∀ c ∈ pre.toList, isDigitCh c = false)
    (hsuf : ∀ c ∈ suf.toList, isDigitCh c = false)
    (hf : stampedName pre suf f) (hg : stampedName pre suf g)
    (hle : f ≤ g) : stampValue f ≤ stampValue g := by
  obtain ⟨sf, hfeq, d1f, d2f, hsf, h1f, h2f, hd1f, hd2f⟩ := hf
  obtain ⟨sg, hgeq, d1g, d2g, hsg, h1g, h2g, hd1g, hd2g⟩ := hg
  have hvf : stampValue f = digitsNum (d1f ++ d2f) :=
    stampValue_eq pre suf f sf d1f d2f hfeq hsf hd1f hd2f hpre hsuf
  have hvg : stampValue g = digitsNum (d1g ++ d2g) :=
    stampValue_eq pre suf g sg d1g d2g hgeq hsg hd1g hd2g hpre hsuf
  by_contra hlt
  push_neg at hlt
  rw [hvf, hvg] at hlt
  have hlex : List.Lex (· < ·) g.toList f.toList := by
    rw [hfeq, hgeq, hsf, hsg]
    rw [List.append_assoc, List.append_assoc, List.append_assoc, List.append_assoc,
      List.cons_append]
    refine lex_append_left_of_lex pre.toList _ _ ?_
    rcases Nat.lt_trichotomy (digitsNum d1g) (digitsNum d1f) with h | h | h
    · exact lex_of_digitsNum_lt d1g d1f _ _ (h1g.trans h1f.symm) hd1g hd1f h
    · have heq : d1g = d1f :=
        digitsNum_inj d1g d1f (h1g.trans h1f.symm) hd1g hd1f h
      rw [heq]
      refine lex_append_left_of_lex d1f _ _ (List.Lex.cons ?_)
      have hnum : digitsNum d2g < digitsNum d2f := by
        rw [digitsNum_append, digitsNum_append, heq, h2g, h2f] at hlt
        omega
      exact lex_of_digitsNum_lt d2g d2f _ _ (h2g.trans h2f.symm) hd2g hd2f hnum
    · exfalso
      have hb2f := digitsNum_lt_pow d2f hd2f
      have hb2g := digitsNum_lt_pow d2g hd2g
      rw [digitsNum_append, digitsNum_append, h2g, h2f] at hlt
      have h1 : (digitsNum d1f + 1) * 10 ^ 6 ≤ digitsNum d1g * 10 ^ 6 :=
        Nat.mul_le_mul_right _ (by omega)
      have h2 : (digitsNum d1f + 1) * 10 ^ 6 = digitsNum d1f * 10 ^ 6 + 10 ^ 6 := by
        ring
      rw [h2f] at hb2f
      rw [h2g] at hb2g
      omega
  exact absurd (String.lt_iff_toList_lt.mpr hlex) (not_lt.mpr hle)

/-- C6: each artifact selection picks the most recent artifact.  The
summarization step picks the lexicographically greatest `messages_*.json` of
`data/`, the summary poster the lexicographically greatest `summary_*.txt` of
`summaries/` — and under the `%Y%m%d_%H%M%S` naming convention that file
carries the greatest numeric timestamp; `find_most_recent_json` picks the
`*.json` with the greatest modification time; and each selection reports an
error (`none`, resp. `FileNotFoundError`) when the directory or matching
files are absent. -/
theorem claim_C6 :
    (∀ (files : List String) (g : String), step2SelectInput (some files) = some g →
      g ∈ files ∧ startsWithName "messages_" g = true ∧ endsWithName ".json" g = true ∧
        ∀ f ∈ files, startsWithName "messages_" f = true → endsWithName ".json" f = true →
          f ≤ g ∧ (stampedName "messages_" ".json" f → stampedName "messages_" ".json" g →
            stampValue f ≤ stampValue g)) ∧
    (∀ (files : List String) (g : String), find_latest_summary (some files) = some g →
      g ∈ files ∧ startsWithName "summary_" g = true ∧ endsWithName ".txt" g = true ∧
        ∀ f ∈ files, startsWithName "summary_" f = true → endsWithName ".txt" f = true →
          f ≤ g ∧ (stampedName "summary_" ".txt" f → stampedName "summary_" ".txt" g →
            stampValue f ≤ stampValue g)) ∧
    (∀ (files : List DataFile) (df : DataFile),
      find_most_recent_json (some files) = .ok df →
      df ∈ files ∧ endsWithName ".json" df.name = true ∧
        ∀ f ∈ files, endsWithName ".json" f.name = true → f.mtime ≤ df.mtime) ∧
    step2SelectInput none = none ∧
    find_latest_summary none = none ∧
    (∀ files : List String,
      files.filter (fun f => startsWithName "messages_" f && endsWithName ".json" f) = [] →
      step2SelectInput (some files) = none) ∧
    (∀ files : List String,
      files.filter (fun f => startsWithName "summary_" f && endsWithName ".txt" f) = [] →
      find_latest_summary (some files) = none) ∧
    find_most_recent_json none = .error "Data directory not found" ∧
    (∀ files : List DataFile, files.filter (fun f => endsWithName ".json" f.name) = [] →
      find_most_recent_json (some files) = .error "No JSON files found in data directory") := by
  have hchron : ∀ (pre suf : String), (∀ c ∈ pre.toList, isDigitCh c = false) →
      (∀ c ∈ suf.toList, isDigitCh c = false) →
      ∀ (files : List String) (g : String), latestByName pre suf files = some g →
      g ∈ files ∧ startsWithName pre g = true ∧ endsWithName suf g = true ∧
        ∀ f ∈ files, startsWithName pre f = true → endsWithName suf f = true →
          f ≤ g ∧ (stampedName pre suf f → stampedName pre suf g →
            stampValue f ≤ stampValue g) := by
    intro pre suf hpre hsuf files g hg
    obtain ⟨hmem, hsw, hew, hmax⟩ := latestByName_spec pre suf files g hg
    refine ⟨hmem, hsw, hew, ?_⟩
    intro f hf hswf hewf
    refine ⟨hmax f hf hswf hewf, ?_⟩
    intro hstf hstg
    exact stampValue_le_of_le pre suf f g hpre hsuf hstf hstg (hmax f hf hswf hewf)
  refine ⟨?_, ?_, ?_, rfl, rfl, ?_, ?_, rfl, ?_⟩
  · exact hchron "messages_" ".json" (by decide) (by decide)
  · exact hchron "summary_" ".txt" (by decide) (by decide)
  · intro files df hdf
    simp only [find_most_recent_json] at hdf
    rcases hfil : files.filter (fun f => endsWithName ".json" f.name) with _ | ⟨f0, rest⟩
    · rw [hfil] at hdf
      simp at hdf
    · rw [hfil] at hdf
      have hdf' : maxByMtime f0 rest = df := by
        simpa using hdf
      obtain ⟨hmem, hbound⟩ := maxByMtime_spec rest f0
      rw [hdf'] at hmem hbound
      have hdffil : df ∈ files.filter (fun f => endsWithName ".json" f.name) := by
        rw [hfil]
        exact hmem
      have hdfspec := List.mem_filter.mp hdffil
      refine ⟨hdfspec.1, hdfspec.2, ?_⟩
      intro f hfmem hfjson
      have : f ∈ files.filter (fun f => endsWithName ".json" f.name) :=
        List.mem_filter.mpr ⟨hfmem, hfjson⟩
      rw [hfil] at this
      exact hbound f this
  · intro files hempty
    show latestByName "messages_" ".json" files = none
    rw [latestByName_none]
    exact hempty
  · intro files hempty
    show latestByName "summary_" ".txt" files = none
    rw [latestByName_none]
    exact hempty
  · intro files hempty
    simp only [find_most_recent_json]
    rw [hempty]

/-- Concrete instance of C6: of two timestamped message files the later one
is selected, both lexicographically and by numeric stamp. -/
theorem claim_C6_witness :
    "messages_20250101_000000.json" ≤ "messages_20251001_120000.json" ∧
      stampValue "messages_20250101_000000.json" ≤
        stampValue "messages_20251001_120000.json" := by
  have h := (claim_C6.1
    ["messages_20251001_120000.json", "readme.txt", "messages_20250101_000000.json"]
    "messages_20251001_120000.json" (by decide)).2.2.2
    "messages_20250101_000000.json" (by decide) (by decide) (by decide)
  refine ⟨h.1, h.2 ?_ ?_⟩
  · exact ⟨"20250101_000000".toList, by decide, "20250101".toList, "000000".toList,
      by decide, by decide, by decide, by decide, by decide⟩
  · exact ⟨"20251001_120000".toList, by decide, "20251001".toList, "120000".toList,
      by decide, by decide, by decide, by decide, by decide⟩

/-! ### C7: fixed sleeps before chat-API calls -/

theorem sga_historyAttempt (ras : List Int) (rest : List Ev) :
    sleepGuardedAux true (historyAttemptEvents ras ++ rest) = sleepGuardedAux false rest := by
  induction ras with
  | nil => simp [historyAttemptEvents, sleepGuardedAux]
  | cons ra rs ih => simp [historyAttemptEvents, sleepGuardedAux, ih]

theorem sga_history (pages : List (List Int)) :
    sleepGuarded (get_channel_history_trace pages) = true := by
  unfold sleepGuarded
  induction pages with
  | nil => rfl
  | cons p ps ih =>
    simp only [get_channel_history_trace, List.flatMap_cons, List.cons_append]
    show sleepGuardedAux true (historyAttemptEvents p ++ (ps.flatMap _)) = true
    rw [sga_historyAttempt]
    exact ih

theorem sga_postAttempts (delay : Int) (outcomes : Nat → Option (String × Int)) :
    ∀ (fuel i : Nat) (b : Bool),
      sleepGuardedAux b (postAttempts delay outcomes fuel i) = true
  | 0, _, _ => rfl
  | fuel + 1, i, b => by
    simp only [postAttempts, sleepGuardedAux, Bool.true_and]
    match outcomes i with
    | none => rfl
    | some (code, ra) =>
      by_cases hc : code = "rate_limited"
      · simp only [if_pos hc, sleepGuardedAux]
        exact sga_postAttempts delay outcomes fuel (i + 1) true
      · simp only [if_neg hc]
        by_cases hf : 0 < fuel
        · simp only [if_pos hf, sleepGuardedAux]
          exact sga_postAttempts delay outcomes fuel (i + 1) true
        · simp only [if_neg hf]
          rfl

/-- C7 (amended): every chat-API call issued through a `TownCrierSlackClient`
method — including retries — is directly preceded by a sleep, but the
summary-posting flows additionally call `conversations_list` on the raw
`WebClient` with no preceding sleep, so the claim fails for the system as a
whole. -/
theorem claim_C7 (pages : List (List Int)) (pmOut prOut : Nat → Option (String × Int)) :
    sleepGuarded test_connection_trace = true ∧
    sleepGuarded get_all_accessible_channels_trace = true ∧
    sleepGuarded get_thread_replies_trace = true ∧
    sleepGuarded get_user_info_trace = true ∧
    sleepGuarded upload_file_trace = true ∧
    sleepGuarded (get_channel_history_trace pages) = true ∧
    sleepGuarded (post_message_trace pmOut) = true ∧
    sleepGuarded (post_reply_trace prOut) = true ∧
    sleepGuarded (summary_post_flow_trace pmOut prOut) = false := by
  refine ⟨rfl, rfl, rfl, rfl, rfl, sga_history pages,
    sga_postAttempts 30 pmOut 3 0 false, sga_postAttempts 5 prOut 3 0 false, ?_⟩
  simp [summary_post_flow_trace, test_connection_trace, sleepGuarded, sleepGuardedAux]

/-- C7 is violated by the code: the summary-posting flow reaches its
`conversations_list` invocation with no preceding sleep (here with all posts
succeeding on the first attempt). -/
theorem claim_C7_counterexample :
    sleepGuarded (summary_post_flow_trace (fun _ => none) (fun _ => none)) = false := by
  decide

/-! ### C10: the per-run collection invariant -/

theorem alookup_append_of_none {β : Type} (m m' : List (String × β)) (k : String)
    (h : alookup m k = none) : alookup (m ++ m') k = alookup m' k := by
  induction m with
  | nil => rfl
  | cons p rest ih =>
    simp only [alookup] at h
    by_cases hk : p.1 = k
    · rw [if_pos hk] at h
      exact absurd h (by simp)
    · simp only [List.cons_append, alookup, if_neg hk] at *
      exact ih h

theorem alookup_append_self {β : Type} (m : List (String × β)) (k : String) (v : β)
    (h : alookup m k = none) : alookup (m ++ [(k, v)]) k = some v := by
  rw [alookup_append_of_none m _ k h]
  simp [alookup]

theorem dictInsert_eq_append (m : List (String × ChannelEntry)) (k : String)
    (v : ChannelEntry) (h : alookup m k = none) : dictInsert m k v = m ++ [(k, v)] := by
  induction m with
  | nil => rfl
  | cons p rest ih =>
    simp only [alookup] at h
    by_cases hk : p.1 = k
    · rw [if_pos hk] at h
      exact absurd h (by simp)
    · simp only [dictInsert] at *
      rcases p with ⟨k1, v1⟩
      simp only at hk
      rw [if_neg hk, ih (by simpa [if_neg hk] using h)]
      rfl

theorem alookup_dictInsert_ne (m : List (String × ChannelEntry)) (k : String)
    (v : ChannelEntry) (k' : String) (h : ¬k = k') :
    alookup (dictInsert m k v) k' = alookup m k' := by
  induction m with
  | nil => simp [dictInsert, alookup, if_neg h]
  | cons p rest ih =>
    rcases p with ⟨k1, v1⟩
    by_cases hk : k1 = k
    · simp only [dictInsert, if_pos hk, alookup]
      rw [if_neg h, if_neg (hk ▸ h)]
    · simp only [dictInsert, if_neg hk, alookup]
      by_cases hk' : k1 = k'
      · rw [if_pos hk', if_pos hk']
      · rw [if_neg hk', if_neg hk', ih]

theorem collect_fold_preserve (fetchHistory : String → Except String (List RawMsg))
    (fetchReplies : String → String → List RawMsg) (userInfoFn : String → UserInfo) :
    ∀ (channels : List (String × String))
      (acc : List (String × ChannelEntry) × List (String × UserInfo)) (k : String),
      (∀ ch ∈ channels, ch.1 ≠ k) →
      alookup (channels.foldl (collectStep fetchHistory fetchReplies userInfoFn) acc).1 k =
        alookup acc.1 k
  | [], _, _, _ => rfl
  | ch :: rest, acc, k, hne => by
    rw [List.foldl_cons]
    rw [collect_fold_preserve fetchHistory fetchReplies userInfoFn rest _ k
      (fun c hc => hne c (List.mem_cons_of_mem ch hc))]
    exact alookup_dictInsert_ne _ _ _ _ (hne ch (List.mem_cons_self ch rest))

theorem processChannel_fold_length (userInfoFn : String → UserInfo)
    (fetchReplies : String → List RawMsg) :
    ∀ (msgs : List RawMsg) (p : List ProcMsg × List (String × UserInfo)),
      (msgs.foldl (processMsgStep userInfoFn fetchReplies) p).1.length =
        p.1.length + msgs.length
  | [], _ => rfl
  | m :: rest, p => by
    rw [List.foldl_cons]
    rw [processChannel_fold_length userInfoFn fetchReplies rest _]
    simp [processMsgStep]
    omega

theorem processChannel_length (userInfoFn : String → UserInfo)
    (fetchReplies : String → List RawMsg) (cache : List (String × UserInfo))
    (msgs : List RawMsg) :
    (processChannel userInfoFn fetchReplies cache msgs).1.length = msgs.length := by
  unfold processChannel
  rw [processChannel_fold_length]
  simp

/-- The shape of the entry a channel receives, as a function of its fetch
outcome. -/
def entryMatches (fetchHistory : String → Except String (List RawMsg))
    (ch : String × String) (entry : ChannelEntry) : Prop :=
  entry.id = ch.2 ∧
    ((∃ e, fetchHistory ch.2 = .error e ∧ entry.error = some (exnEntryError e) ∧
        entry.message_count = 0 ∧ entry.messages = []) ∨
     (∃ msgs, fetchHistory ch.2 = .ok msgs ∧ entry.error = none ∧
        entry.message_count = msgs.length ∧ entry.messages.length = msgs.length))

theorem channelResult_matches (fetchHistory : String → Except String (List RawMsg))
    (fetchReplies : String → String → List RawMsg) (userInfoFn : String → UserInfo)
    (cache : List (String × UserInfo)) (ch : String × String) :
    entryMatches fetchHistory ch
      (channelResult userInfoFn fetchReplies cache ch.2 (fetchHistory ch.2)).1 := by
  unfold entryMatches channelResult
  rcases hout : fetchHistory ch.2 with e | msgs
  · exact ⟨rfl, Or.inl ⟨e, rfl, rfl, rfl, rfl⟩⟩
  · refine ⟨rfl, Or.inr ⟨msgs, rfl, rfl, rfl, ?_⟩⟩
    exact processChannel_length userInfoFn (fetchReplies ch.2) cache msgs

theorem collect_fold_spec (fetchHistory : String → Except String (List RawMsg))
    (fetchReplies : String → String → List RawMsg) (userInfoFn : String → UserInfo) :
    ∀ (channels : List (String × String))
      (acc : List (String × ChannelEntry) × List (String × UserInfo)),
      (∀ ch ∈ channels, alookup acc.1 ch.1 = none) →
      (channels.map Prod.fst).Nodup →
      ((channels.foldl (collectStep fetchHistory fetchReplies userInfoFn) acc).1.map
          Prod.fst = acc.1.map Prod.fst ++ channels.map Prod.fst) ∧
      ∀ ch ∈ channels, ∃ entry,
        alookup (channels.foldl (collectStep fetchHistory fetchReplies userInfoFn)
          acc).1 ch.1 = some entry ∧ entryMatches fetchHistory ch entry
  | [], acc, _, _ => by
    constructor
    · simp
    · intro ch hch
      simp at hch
  | ch :: rest, acc, hfresh, hnd => by
    have hchfresh : alookup acc.1 ch.1 = none := hfresh ch (List.mem_cons_self ch rest)
    have hnd' : (rest.map Prod.fst).Nodup := (List.nodup_cons.mp hnd).2
    have hchnotrest : ∀ c ∈ rest, c.1 ≠ ch.1 := by
      intro c hc hceq
      exact (List.nodup_cons.mp hnd).1 (hceq ▸ List.mem_map_of_mem Prod.fst hc)
    have hstep1 : (collectStep fetchHistory fetchReplies userInfoFn acc ch).1 =
        acc.1 ++ [(ch.1, (channelResult userInfoFn fetchReplies acc.2 ch.2
          (fetchHistory ch.2)).1)] := by
      unfold collectStep
      exact dictInsert_eq_append _ _ _ hchfresh
    have hfresh' : ∀ c ∈ rest,
        alookup (collectStep fetchHistory fetchReplies userInfoFn acc ch).1 c.1 = none := by
      intro c hc
      rw [hstep1]
      rw [alookup_append_of_none _ _ _ (hfresh c (List.mem_cons_of_mem ch hc))]
      simp [alookup, if_neg (Ne.symm (hchnotrest c hc))]
    have ih := collect_fold_spec fetchHistory fetchReplies userInfoFn rest
      (collectStep fetchHistory fetchReplies userInfoFn acc ch) hfresh' hnd'
    rw [List.foldl_cons]
    constructor
    · rw [ih.1, hstep1]
      simp
    · intro c hc
      rcases List.mem_cons.mp hc with rfl | hc'
      · refine ⟨(channelResult userInfoFn fetchReplies acc.2 c.2 (fetchHistory c.2)).1,
          ?_, channelResult_matches fetchHistory fetchReplies userInfoFn acc.2 c⟩
        rw [collect_fold_preserve fetchHistory fetchReplies userInfoFn rest _ c.1
          hchnotrest]
        rw [hstep1]
        exact alookup_append_self _ _ _ hchfresh
      · exact ih.2 c hc'

/-- C10: for a run over channels with distinct names, the output `channels`
mapping has exactly the channels' names as its keys, in order, and each
channel's entry reflects its own fetch outcome: a successful fetch gives an
error-free entry whose `message_count` (and stored message list length)
equals the number of fetched top-level messages, while a fetch error gives an
error entry with `message_count` 0 and no messages — so one channel's failure
never disturbs the others' entries. -/
theorem claim_C10 (channels : List (String × String))
    (fetchHistory : String → Except String (List RawMsg))
    (fetchReplies : String → String → List RawMsg) (userInfoFn : String → UserInfo)
    (hnd : (channels.map Prod.fst).Nodup) :
    ((collect_all_messages channels fetchHistory fetchReplies userInfoFn).1.map
        Prod.fst = channels.map Prod.fst) ∧
    ∀ ch ∈ channels, ∃ entry,
      alookup (collect_all_messages channels fetchHistory fetchReplies userInfoFn).1
        ch.1 = some entry ∧ entryMatches fetchHistory ch entry := by
  have h := collect_fold_spec fetchHistory fetchReplies userInfoFn channels ([], [])
    (fun ch _ => rfl) hnd
  exact ⟨by simpa using h.1, h.2⟩

/-- Concrete instance of C10: with one healthy channel and one failing
channel, the failing channel gets a `bot_not_in_channel` error entry while
the healthy one keeps its messages. -/
theorem claim_C10_witness :
    (∃ entry, alookup (collect_all_messages [("alpha", "C1"), ("beta", "C2")]
        (fun cid => if cid = "C2" then .error "Slack error: not_in_channel"
          else .ok [⟨"1700000000.0", some "U1", "hi", some "message", none, none, 0⟩])
        (fun _ _ => []) (fun uid => ⟨uid, "bob", "Bob", "b"⟩)).1 "beta" = some entry ∧
      entryMatches
        (fun cid => if cid = "C2" then .error "Slack error: not_in_channel"
          else .ok [⟨"1700000000.0", some "U1", "hi", some "message", none, none, 0⟩])
        ("beta", "C2") entry) :=
  (claim_C10 [("alpha", "C1"), ("beta", "C2")]
    (fun cid => if cid = "C2" then .error "Slack error: not_in_channel"
      else .ok [⟨"1700000000.0", some "U1", "hi", some "message", none, none, 0⟩])
    (fun _ _ => []) (fun uid => ⟨uid, "bob", "Bob", "b"⟩) (by decide)).2
    ("beta", "C2") (by decide)

/-! ### C4: `resolve_user_mentions` — basic scanning lemmas -/

theorem idChar_bounds (c : Char) (h : idChar c = true) :
    (65 ≤ c.toNat ∧ c.toNat ≤ 90) ∨ (48 ≤ c.toNat ∧ c.toNat ≤ 57) := by
  have h' : (('A' ≤ c) ∧ (c ≤ 'Z')) ∨ (('0' ≤ c) ∧ (c ≤ '9')) := by
    simpa [idChar] using h
  rcases h' with ⟨h1, h2⟩ | ⟨h1, h2⟩
  · exact Or.inl ⟨h1, h2⟩
  · exact Or.inr ⟨h1, h2⟩

theorem idChar_ne_gt (c : Char) (h : idChar c = true) : c ≠ '>' := by
  intro he
  subst he
  have h62 : ('>').toNat = 62 := rfl
  rcases idChar_bounds '>' h with ⟨h1, h2⟩ | ⟨h1, h2⟩ <;> omega

theorem idChar_ne_lt (c : Char) (h : idChar c = true) : c ≠ '<' := by
  intro he
  subst he
  have h60 : ('<').toNat = 60 := rfl
  rcases idChar_bounds '<' h with ⟨h1, h2⟩ | ⟨h1, h2⟩ <;> omega

theorem idChar_ne_at (c : Char) (h : idChar c = true) : c ≠ '@' := by
  intro he
  subst he
  have h64 : ('@').toNat = 64 := rfl
  rcases idChar_bounds '@' h with ⟨h1, h2⟩ | ⟨h1, h2⟩ <;> omega

theorem startsWithB_self_append (p t : List Char) : startsWithB p (p ++ t) = true := by
  induction p with
  | nil => rfl
  | cons a x ih => simp [startsWithB, ih]

theorem startsWithB_head {a : Char} {x : List Char} {c : Char} {s : List Char}
    (h : startsWithB (a :: x) (c :: s) = true) : a = c ∧ startsWithB x s = true := by
  simpa [startsWithB] using h

theorem startsWithB_eq_append : ∀ (pat s : List Char), startsWithB pat s = true →
    s = pat ++ s.drop pat.length
  | [], s, _ => by simp
  | a :: ps, [], h => by simp [startsWithB] at h
  | a :: ps, c :: rest, h => by
    obtain ⟨hac, hrest⟩ := startsWithB_head h
    subst hac
    have ih := startsWithB_eq_append ps rest hrest
    simp only [List.length_cons, List.drop_succ_cons, List.cons_append]
    exact congrArg (a :: ·) ih

theorem dropWhile_all_append (p : Char → Bool) :
    ∀ (x : List Char) (y : List Char), (∀ c ∈ x, p c = true) →
    (∀ c, y.head? = some c → p c = false) → (x ++ y).dropWhile p = y := by
  intro x
  induction x with
  | nil =>
    intro y _ hy
    cases y with
    | nil => rfl
    | cons y0 ys =>
      simp only [List.nil_append, List.dropWhile_cons]
      rw [hy y0 rfl]
      simp
  | cons a x' ih =>
    intro y hx hy
    simp only [List.cons_append, List.dropWhile_cons]
    rw [hx a (List.mem_cons_self a x')]
    simp only [if_true]
    exact ih y (fun c hc => hx c (List.mem_cons_of_mem a hc)) hy

theorem takeWhile_all_append (p : Char → Bool) :
    ∀ (x : List Char) (y : List Char), (∀ c ∈ x, p c = true) →
    (∀ c, y.head? = some c → p c = false) → (x ++ y).takeWhile p = x := by
  intro x
  induction x with
  | nil =>
    intro y _ hy
    cases y with
    | nil => rfl
    | cons y0 ys =>
      simp only [List.nil_append, List.takeWhile_cons]
      rw [hy y0 rfl]
      simp
  | cons a x' ih =>
    intro y hx hy
    simp only [List.cons_append, List.takeWhile_cons]
    rw [hx a (List.mem_cons_self a x')]
    simp only [if_true]
    rw [ih y (fun c hc => hx c (List.mem_cons_of_mem a hc)) hy]

theorem parseMention_cons3 (c1 c2 c3 : Char) (rest : List Char) :
    parseMention (c1 :: c2 :: c3 :: rest) =
      if c1 = '<' ∧ c2 = '@' ∧ c3 = 'U' ∧ (rest.dropWhile idChar).head? = some '>' ∧
          (rest.takeWhile idChar).isEmpty = false then
        some ('U' :: rest.takeWhile idChar, (rest.dropWhile idChar).tail)
      else none := rfl

theorem parseMention_some {l ident after : List Char}
    (h : parseMention l = some (ident, after)) :
    l = tokStr ident ++ after ∧ validId ident := by
  match l with
  | [] => simp [parseMention] at h
  | [c1] => simp [parseMention] at h
  | [c1, c2] => simp [parseMention] at h
  | c1 :: c2 :: c3 :: rest =>
    rw [parseMention_cons3] at h
    by_cases hcond : c1 = '<' ∧ c2 = '@' ∧ c3 = 'U' ∧
        (rest.dropWhile idChar).head? = some '>' ∧
        (rest.takeWhile idChar).isEmpty = false
    · rw [if_pos hcond] at h
      obtain ⟨h1, h2, h3, h4, h5⟩ := hcond
      subst h1
      subst h2
      subst h3
      obtain ⟨hid, haft⟩ : 'U' :: rest.takeWhile idChar = ident ∧
          (rest.dropWhile idChar).tail = after := by
        simpa using h
      have hdecomp := List.takeWhile_append_dropWhile idChar rest
      rcases hdw : rest.dropWhile idChar with _ | ⟨d0, ds⟩
      · rw [hdw] at h4
        simp at h4
      · rw [hdw] at h4 haft
        have hd0 : d0 = '>' := by simpa using h4
        subst hd0
        simp only [List.tail_cons] at haft
        have hrest : rest = rest.takeWhile idChar ++ '>' :: ds := by
          conv_lhs => rw [← hdecomp]
          rw [hdw]
        constructor
        · rw [← hid, ← haft]
          unfold tokStr
          conv_lhs => rw [hrest]
          simp
        · rw [← hid]
          refine ⟨?_, rfl, ?_⟩
          · rcases htw : rest.takeWhile idChar with _ | ⟨t0, ts⟩
            · rw [htw] at h5
              simp at h5
            · simp
          · intro c hc
            rcases List.mem_cons.mp hc with rfl | hc'
            · decide
            · exact List.mem_takeWhile_imp hc'
    · rw [if_neg hcond] at h
      simp at h

theorem parseMention_tok (ident : List Char) (t : List Char) (hv : validId ident) :
    parseMention (tokStr ident ++ t) = some (ident, t) := by
  obtain ⟨hlen, hhead, hmem⟩ := hv
  rcases ident with _ | ⟨i0, run⟩
  · simp at hhead
  · have hi0 : i0 = 'U' := by simpa using hhead
    subst hi0
    have hrun : run ≠ [] := by
      intro h
      subst h
      simp at hlen
    have hrunid : ∀ c ∈ run, idChar c = true :=
      fun c hc => hmem c (List.mem_cons_of_mem _ hc)
    have hgtid : idChar '>' = false := by decide
    have hshape : tokStr ('U' :: run) ++ t = '<' :: '@' :: 'U' :: (run ++ '>' :: t) := by
      unfold tokStr
      simp
    rw [hshape, parseMention_cons3]
    have hhd : ∀ c, ('>' :: t).head? = some c → idChar c = false := by
      intro c hc
      have : c = '>' := by simpa using hc.symm
      rw [this]
      exact hgtid
    have hdw : (run ++ ('>' :: t)).dropWhile idChar = '>' :: t :=
      dropWhile_all_append idChar run ('>' :: t) hrunid hhd
    have htw : (run ++ ('>' :: t)).takeWhile idChar = run :=
      takeWhile_all_append idChar run ('>' :: t) hrunid hhd
    rw [if_pos]
    · rw [htw, hdw]
      rfl
    · refine ⟨rfl, rfl, rfl, ?_, ?_⟩
      · rw [hdw]
        rfl
      · rw [htw]
        simpa using hrun

theorem parseMention_some_length {l ident after : List Char}
    (h : parseMention l = some (ident, after)) : after.length < l.length := by
  obtain ⟨heq, hv⟩ := parseMention_some h
  rw [heq]
  simp only [List.length_append, tokStr, List.length_cons]
  omega

/-! ### C4: fuel elimination for the scanning functions -/

theorem findMentionsF_mono : ∀ (f1 : Nat) (l : List Char) (f2 : Nat),
    l.length ≤ f1 → l.length ≤ f2 → findMentionsF f1 l = findMentionsF f2 l
  | 0, l, f2, h1, _ => by
    have : l = [] := List.eq_nil_of_length_eq_zero (by omega)
    subst this
    cases f2 <;> rfl
  | g + 1, [], f2, _, _ => by cases f2 <;> rfl
  | g + 1, c :: rest, f2, h1, h2 => by
    cases f2 with
    | zero => simp at h2
    | succ h =>
      rcases hpm : parseMention (c :: rest) with _ | ⟨ident, after⟩
      · simp only [findMentionsF, hpm]
        exact findMentionsF_mono g rest h (by simpa using h1) (by simpa using h2)
      · have hlt := parseMention_some_length hpm
        simp only [findMentionsF, hpm]
        rw [findMentionsF_mono g after h (by simp at h1 hlt ⊢; omega)
          (by simp at h2 hlt ⊢; omega)]

theorem findMentions_cons_some {c : Char} {rest ident after : List Char}
    (h : parseMention (c :: rest) = some (ident, after)) :
    findMentions (c :: rest) = ident :: findMentions after := by
  unfold findMentions
  have hlt := parseMention_some_length h
  simp only [List.length_cons, findMentionsF, h]
  rw [findMentionsF_mono rest.length after after.length
    (by simp at hlt; omega) (le_refl _)]

theorem findMentions_cons_none {c : Char} {rest : List Char}
    (h : parseMention (c :: rest) = none) :
    findMentions (c :: rest) = findMentions rest := by
  unfold findMentions
  simp only [List.length_cons, findMentionsF, h]

theorem tokenizeF_mono : ∀ (f1 : Nat) (l : List Char) (f2 : Nat),
    l.length ≤ f1 → l.length ≤ f2 → tokenizeF f1 l = tokenizeF f2 l
  | 0, l, f2, h1, _ => by
    have : l = [] := List.eq_nil_of_length_eq_zero (by omega)
    subst this
    cases f2 <;> rfl
  | g + 1, [], f2, _, _ => by cases f2 <;> rfl
  | g + 1, c :: rest, f2, h1, h2 => by
    cases f2 with
    | zero => simp at h2
    | succ h =>
      rcases hpm : parseMention (c :: rest) with _ | ⟨ident, after⟩
      · simp only [tokenizeF, hpm]
        rw [tokenizeF_mono g rest h (by simpa using h1) (by simpa using h2)]
      · have hlt := parseMention_some_length hpm
        simp only [tokenizeF, hpm]
        rw [tokenizeF_mono g after h (by simp at h1 hlt ⊢; omega)
          (by simp at h2 hlt ⊢; omega)]

theorem tokenize_cons_some {c : Char} {rest ident after : List Char}
    (h : parseMention (c :: rest) = some (ident, after)) :
    tokenize (c :: rest) = .tok ident :: tokenize after := by
  unfold tokenize
  have hlt := parseMention_some_length h
  simp only [List.length_cons, tokenizeF, h]
  rw [tokenizeF_mono rest.length after after.length (by simp at hlt; omega) (le_refl _)]

theorem tokenize_cons_none {c : Char} {rest : List Char}
    (h : parseMention (c :: rest) = none) :
    tokenize (c :: rest) = .chr c :: tokenize rest := by
  unfold tokenize
  simp only [List.length_cons, tokenizeF, h]

theorem onePassF_mono (repl : List Char → Option String) :
    ∀ (f1 : Nat) (l : List Char) (f2 : Nat),
    l.length ≤ f1 → l.length ≤ f2 → onePassF repl f1 l = onePassF repl f2 l
  | 0, l, f2, h1, _ => by
    have : l = [] := List.eq_nil_of_length_eq_zero (by omega)
    subst this
    cases f2 <;> rfl
  | g + 1, [], f2, _, _ => by cases f2 <;> rfl
  | g + 1, c :: rest, f2, h1, h2 => by
    cases f2 with
    | zero => simp at h2
    | succ h =>
      rcases hpm : parseMention (c :: rest) with _ | ⟨ident, after⟩
      · simp only [onePassF, hpm]
        rw [onePassF_mono repl g rest h (by simpa using h1) (by simpa using h2)]
      · have hlt := parseMention_some_length hpm
        simp only [onePassF, hpm]
        rw [onePassF_mono repl g after h (by simp at h1 hlt ⊢; omega)
          (by simp at h2 hlt ⊢; omega)]

theorem onePass_cons_some (repl : List Char → Option String) {c : Char}
    {rest ident after : List Char} (h : parseMention (c :: rest) = some (ident, after)) :
    onePass repl (c :: rest) =
      (match repl ident with
       | some nm => '@' :: nm.toList
       | none => tokStr ident) ++ onePass repl after := by
  unfold onePass
  have hlt := parseMention_some_length h
  simp only [List.length_cons, onePassF, h]
  rw [onePassF_mono repl rest.length after after.length (by simp at hlt; omega)
    (le_refl _)]

theorem onePass_cons_none (repl : List Char → Option String) {c : Char} {rest : List Char}
    (h : parseMention (c :: rest) = none) :
    onePass repl (c :: rest) = c :: onePass repl rest := by
  unfold onePass
  simp only [List.length_cons, onePassF, h]

theorem replaceAllF_mono (p : Char) (ps repl : List Char) :
    ∀ (f1 : Nat) (s : List Char) (f2 : Nat),
    s.length ≤ f1 → s.length ≤ f2 → replaceAllF p ps repl f1 s = replaceAllF p ps repl f2 s
  | f1, [], f2, _, _ => by
    cases f1 <;> cases f2 <;> simp [replaceAllF]
  | 0, c :: rest, _, h1, _ => by simp at h1
  | g + 1, c :: rest, 0, _, h2 => by simp at h2
  | g + 1, c :: rest, h + 1, h1, h2 => by
    by_cases hsw : startsWithB (p :: ps) (c :: rest) = true
    · simp only [replaceAllF, if_pos hsw]
      rw [replaceAllF_mono p ps repl (g - ps.length) (rest.drop ps.length) (h - ps.length)
        (by simp at h1 ⊢; omega) (by simp at h2 ⊢; omega)]
    · simp only [replaceAllF, if_neg hsw]
      rw [replaceAllF_mono p ps repl g rest h (by simpa using h1) (by simpa using h2)]

theorem replaceAll_nil (pat repl : List Char) : replaceAll [] pat repl = [] := by
  cases pat <;> simp [replaceAll, replaceAllF]

theorem replaceAll_cons_no_match {c : Char} {rest pat : List Char} (repl : List Char)
    (h : startsWithB pat (c :: rest) = false) :
    replaceAll (c :: rest) pat repl = c :: replaceAll rest pat repl := by
  cases pat with
  | nil => simp [startsWithB] at h
  | cons p ps =>
    unfold replaceAll
    simp only [List.length_cons, replaceAllF, h, Bool.false_eq_true, if_false]

theorem replaceAll_match (pat t repl : List Char) (hne : pat ≠ []) :
    replaceAll (pat ++ t) pat repl = repl ++ replaceAll t pat repl := by
  cases pat with
  | nil => exact absurd rfl hne
  | cons p ps =>
    unfold replaceAll
    rcases hshape : (p :: ps) ++ t with _ | ⟨c, rest⟩
    · simp at hshape
    · have hsw : startsWithB (p :: ps) (c :: rest) = true := by
        rw [← hshape]
        exact startsWithB_self_append _ _
      have hc : p = c := by
        simpa using congrArg List.head? hshape
      have hrest : rest = ps ++ t := by
        simpa using (congrArg List.tail hshape).symm
      subst hc
      subst hrest
      simp only [List.length_cons, replaceAllF, if_pos hsw]
      have hdrop : (ps ++ t).drop ps.length = t := by
        rw [List.drop_left]
      rw [hdrop]
      rw [replaceAllF_mono p ps repl ((ps ++ t).length - ps.length) t t.length
        (by simp) (le_refl _)]

/-! ### C4: the token decomposition of a text -/

theorem renderPlain_tokenize : ∀ l : List Char, renderPlain (tokenize l) = l
  | [] => rfl
  | c :: rest => by
    rcases hpm : parseMention (c :: rest) with _ | ⟨ident, after⟩
    · rw [tokenize_cons_none hpm]
      have ih := renderPlain_tokenize rest
      simp only [renderPlain, List.flatMap_cons] at ih ⊢
      rw [ih]
      rfl
    · rw [tokenize_cons_some hpm]
      have ih := renderPlain_tokenize after
      have hdec := parseMention_some hpm
      simp only [renderPlain, List.flatMap_cons] at ih ⊢
      rw [ih]
      exact hdec.1.symm
termination_by l => l.length
decreasing_by
  · simp
  · exact parseMention_some_length hpm

theorem findMentions_eq_tokenIds : ∀ l : List Char, findMentions l = tokenIds (tokenize l)
  | [] => rfl
  | c :: rest => by
    rcases hpm : parseMention (c :: rest) with _ | ⟨ident, after⟩
    · rw [tokenize_cons_none hpm, findMentions_cons_none hpm]
      have ih := findMentions_eq_tokenIds rest
      simp only [tokenIds, List.flatMap_cons] at ih ⊢
      rw [ih]
      rfl
    · rw [tokenize_cons_some hpm, findMentions_cons_some hpm]
      have ih := findMentions_eq_tokenIds after
      simp only [tokenIds, List.flatMap_cons] at ih ⊢
      rw [ih]
      rfl
termination_by l => l.length
decreasing_by
  · simp
  · exact parseMention_some_length hpm

theorem scanOk_tokenize : ∀ l : List Char, scanOk (tokenize l)
  | [] => trivial
  | c :: rest => by
    rcases hpm : parseMention (c :: rest) with _ | ⟨ident, after⟩
    · rw [tokenize_cons_none hpm]
      refine ⟨?_, scanOk_tokenize rest⟩
      rw [renderPlain_tokenize rest]
      exact hpm
    · rw [tokenize_cons_some hpm]
      exact ⟨(parseMention_some hpm).2, scanOk_tokenize after⟩
termination_by l => l.length
decreasing_by
  · simp
  · exact parseMention_some_length hpm

theorem onePass_eq_renderFull (repl : List Char → Option String) :
    ∀ l : List Char, onePass repl l = renderFull repl (tokenize l)
  | [] => rfl
  | c :: rest => by
    rcases hpm : parseMention (c :: rest) with _ | ⟨ident, after⟩
    · rw [tokenize_cons_none hpm, onePass_cons_none repl hpm]
      have ih := onePass_eq_renderFull repl rest
      simp only [renderFull, List.flatMap_cons] at ih ⊢
      rw [ih]
      rfl
    · rw [tokenize_cons_some hpm, onePass_cons_some repl hpm]
      have ih := onePass_eq_renderFull repl after
      simp only [renderFull, List.flatMap_cons] at ih ⊢
      rw [ih]
termination_by l => l.length
decreasing_by
  · simp
  · exact parseMention_some_length hpm

theorem renderW_nil_P (repl : List Char → Option String) (items : List Item) :
    renderW repl [] items = renderPlain items := by
  induction items with
  | nil => rfl
  | cons i rest ih =>
    simp only [renderW, renderPlain, List.flatMap_cons] at ih ⊢
    rw [ih]
    rcases i with c | ident
    · rfl
    · simp [segShape]

theorem renderW_cons_unresolved (repl : List Char → Option String)
    (P : List (List Char)) (id0 : List Char) (h : repl id0 = none) (items : List Item) :
    renderW repl (id0 :: P) items = renderW repl P items := by
  induction items with
  | nil => rfl
  | cons i rest ih =>
    simp only [renderW, List.flatMap_cons] at ih ⊢
    rw [ih]
    rcases i with c | ident
    · rfl
    · show segShape repl (id0 :: P) (.tok ident) ++ _ = segShape repl P (.tok ident) ++ _
      by_cases hid : ident = id0
      · subst hid
        by_cases hP : ident ∈ P
        · simp [segShape, hP, h]
        · simp [segShape, hP, h]
      · by_cases hP : ident ∈ P
        · simp [segShape, hP, List.mem_cons, hid]
        · simp [segShape, hP, List.mem_cons, hid]

theorem renderW_full (repl : List Char → Option String) (P : List (List Char)) :
    ∀ items : List Item, (∀ ident, Item.tok ident ∈ items → ident ∈ P) →
    renderW repl P items = renderFull repl items := by
  intro items
  induction items with
  | nil => intro _; rfl
  | cons i rest ih =>
    intro h
    simp only [renderW, renderFull, List.flatMap_cons]
    rw [show rest.flatMap (segShape repl P) = renderW repl P rest from rfl,
      ih (fun ident hm => h ident (List.mem_cons_of_mem i hm))]
    rcases i with c | ident
    · rfl
    · have hP : ident ∈ P := h ident (List.mem_cons_self _ rest)
      simp only [renderFull, segShape, if_pos hP]

theorem tokenIds_mem {ident : List Char} : ∀ {items : List Item},
    Item.tok ident ∈ items → ident ∈ tokenIds items := by
  intro items
  induction items with
  | nil => intro h; simp at h
  | cons i rest ih =>
    intro h
    rcases List.mem_cons.mp h with heq | hm
    · rw [← heq]
      simp [tokenIds]
    · rcases i with c | ident'
      · simpa [tokenIds] using ih hm
      · simp only [tokenIds, List.flatMap_cons]
        exact List.mem_append_right _ (by simpa [tokenIds] using ih hm)

theorem scanOk_valid : ∀ items : List Item, scanOk items →
    ∀ ident, Item.tok ident ∈ items → validId ident
  | [], _, ident, h => by simp at h
  | .chr c :: rest, hsc, ident, h => by
    rcases List.mem_cons.mp h with heq | hm
    · simp at heq
    · exact scanOk_valid rest hsc.2 ident hm
  | .tok ident' :: rest, hsc, ident, h => by
    rcases List.mem_cons.mp h with heq | hm
    · have : ident' = ident := by simpa using heq.symm
      exact this ▸ hsc.1
    · exact scanOk_valid rest hsc.2 ident hm

/-! ### C4: occurrences of a token in a partially substituted text -/

theorem startsWithB_ids_ne : ∀ (x y t : List Char),
    (∀ c ∈ x, idChar c = true) → (∀ c ∈ y, idChar c = true) → x ≠ y →
    startsWithB (x ++ ['>']) (y ++ '>' :: t) = false
  | [], [], _, _, _, hne => absurd rfl hne
  | [], c :: y', t, _, hy, _ => by
    have hc : c ≠ '>' := idChar_ne_gt c (hy c (List.mem_cons_self c y'))
    show (('>' == c) && _) = false
    rw [beq_eq_false_iff_ne.mpr (Ne.symm hc)]
    rfl
  | a :: x', [], t, hx, _, _ => by
    have ha : a ≠ '>' := idChar_ne_gt a (hx a (List.mem_cons_self a x'))
    show ((a == '>') && _) = false
    rw [beq_eq_false_iff_ne.mpr ha]
    rfl
  | a :: x', b :: y', t, hx, hy, hne => by
    by_cases hab : a = b
    · subst hab
      have hne' : x' ≠ y' := by
        intro h
        exact hne (by rw [h])
      show ((a == a) && startsWithB (x' ++ ['>']) (y' ++ '>' :: t)) = false
      rw [startsWithB_ids_ne x' y' t (fun c hc => hx c (List.mem_cons_of_mem a hc))
        (fun c hc => hy c (List.mem_cons_of_mem a hc)) hne']
      rw [beq_self_eq_true]
      rfl
    · show ((a == b) && _) = false
      rw [beq_eq_false_iff_ne.mpr hab]
      rfl

theorem startsWithB_tok_ne (id0 id1 t : List Char) (h0 : validId id0) (h1 : validId id1)
    (hne : id0 ≠ id1) : startsWithB (tokStr id0) (tokStr id1 ++ t) = false := by
  have hshape : tokStr id1 ++ t = '<' :: '@' :: (id1 ++ '>' :: t) := by
    unfold tokStr
    simp
  rw [hshape]
  show (('<' == '<') && (('@' == '@') &&
    startsWithB (id0 ++ ['>']) (id1 ++ '>' :: t))) = false
  rw [startsWithB_ids_ne id0 id1 t h0.2.2 h1.2.2 hne]
  simp

theorem replaceAll_skip_nolt (pat repl' : List Char) (hpat : pat.head? = some '<') :
    ∀ (xs t : List Char), (∀ c ∈ xs, c ≠ '<') →
    replaceAll (xs ++ t) pat repl' = xs ++ replaceAll t pat repl'
  | [], t, _ => by simp
  | c :: xs', t, hxs => by
    have hc : c ≠ '<' := hxs c (List.mem_cons_self c xs')
    have hsw : startsWithB pat (c :: (xs' ++ t)) = false := by
      cases pat with
      | nil => simp at hpat
      | cons p ps =>
        have hp : p = '<' := by simpa using hpat
        subst hp
        show (('<' == c) && _) = false
        rw [beq_eq_false_iff_ne.mpr (Ne.symm hc)]
        rfl
    rw [List.cons_append, replaceAll_cons_no_match repl' hsw,
      replaceAll_skip_nolt pat repl' hpat xs' t
        (fun c' h' => hxs c' (List.mem_cons_of_mem c h'))]
    rfl

theorem tokStr_chars_ne_lt (ident : List Char) (hv : validId ident) :
    ∀ c ∈ '@' :: (ident ++ ['>']), c ≠ '<' := by
  intro c hc
  rcases List.mem_cons.mp hc with rfl | hc'
  · decide
  · rcases List.mem_append.mp hc' with hc'' | hc''
    · exact idChar_ne_lt c (hv.2.2 c hc'')
    · have : c = '>' := by simpa using hc''
      subst this
      decide

theorem replaceAll_tok_seg (id0 ident : List Char) (hvid : validId id0)
    (hvident : validId ident) (hne : ident ≠ id0) (T repl' : List Char) :
    replaceAll (tokStr ident ++ T) (tokStr id0) repl' =
      tokStr ident ++ replaceAll T (tokStr id0) repl' := by
  have hshape : tokStr ident ++ T = '<' :: (('@' :: (ident ++ ['>'])) ++ T) := by
    unfold tokStr
    simp
  have h0 : startsWithB (tokStr id0) (tokStr ident ++ T) = false :=
    startsWithB_tok_ne id0 ident T hvid hvident (fun h => hne h.symm)
  rw [hshape] at h0 ⊢
  rw [replaceAll_cons_no_match repl' h0,
    replaceAll_skip_nolt (tokStr id0) repl' rfl ('@' :: (ident ++ ['>'])) T
      (tokStr_chars_ne_lt ident hvident)]
  rfl

theorem segShape_shape (repl : List Char → Option String) (P : List (List Char))
    (ident : List Char) :
    segShape repl P (.tok ident) = tokStr ident ∨
    ∃ nm', repl ident = some nm' ∧ ident ∈ P ∧
      segShape repl P (.tok ident) = '@' :: nm'.toList := by
  by_cases hP : ident ∈ P
  · rcases hr : repl ident with _ | nm'
    · left
      simp [segShape, hP, hr]
    · right
      refine ⟨nm', rfl, hP, ?_⟩
      simp [segShape, hP, hr]
  · left
    simp [segShape, hP]

theorem renderW_cons (repl : List Char → Option String) (P : List (List Char))
    (i : Item) (rest : List Item) :
    renderW repl P (i :: rest) = segShape repl P i ++ renderW repl P rest := rfl

theorem renderPlain_cons_chr (c : Char) (rest : List Item) :
    renderPlain (.chr c :: rest) = c :: renderPlain rest := rfl

theorem renderPlain_cons_tok (ident : List Char) (rest : List Item) :
    renderPlain (.tok ident :: rest) = tokStr ident ++ renderPlain rest := rfl

theorem swB_render_suffix (repl : List Char → Option String) (P : List (List Char))
    (htame : ∀ ident nm, repl ident = some nm → nm ≠ "") :
    ∀ (items : List Item) (v : List Char), (∀ c ∈ v, idChar c = true) →
    startsWithB (v ++ ['>']) (renderW repl P items) = true →
    startsWithB (v ++ ['>']) (renderPlain items) = true
  | [], v, _, h => by
    exfalso
    cases v <;> exact absurd h (by simp [renderW, startsWithB])
  | .chr c :: rest, v, hv, h => by
    rw [renderW_cons] at h
    rw [renderPlain_cons_chr]
    cases v with
    | nil =>
      have h' : (('>' == c) && startsWithB [] (renderW repl P rest)) = true := h
      show (('>' == c) && startsWithB [] (renderPlain rest)) = true
      simp only [startsWithB, Bool.and_true] at h' ⊢
      exact h'
    | cons a v' =>
      have h' : ((a == c) && startsWithB (v' ++ ['>']) (renderW repl P rest)) = true := h
      show ((a == c) && startsWithB (v' ++ ['>']) (renderPlain rest)) = true
      rw [Bool.and_eq_true] at h' ⊢
      exact ⟨h'.1, swB_render_suffix repl P htame rest v'
        (fun x hx => hv x (List.mem_cons_of_mem a hx)) h'.2⟩
  | .tok ident :: rest, v, hv, h => by
    exfalso
    rw [renderW_cons] at h
    rcases segShape_shape repl P ident with hseg | ⟨nm', hr, _, hseg⟩
    · rw [hseg] at h
      have hsh : tokStr ident ++ renderW repl P rest =
          '<' :: ('@' :: (ident ++ ['>']) ++ renderW repl P rest) := by
        unfold tokStr
        simp
      rw [hsh] at h
      cases v with
      | nil => exact absurd (startsWithB_head h).1 (by decide)
      | cons a v' =>
        exact absurd (startsWithB_head h).1
          (idChar_ne_lt a (hv a (List.mem_cons_self a v')))
    · rw [hseg] at h
      have hsh : ('@' :: nm'.toList) ++ renderW repl P rest =
          '@' :: (nm'.toList ++ renderW repl P rest) := rfl
      rw [hsh] at h
      cases v with
      | nil => exact absurd (startsWithB_head h).1 (by decide)
      | cons a v' =>
        exact absurd (startsWithB_head h).1
          (idChar_ne_at a (hv a (List.mem_cons_self a v')))

theorem swB_render_at (repl : List Char → Option String) (P : List (List Char))
    (htame : ∀ ident nm, repl ident = some nm →
      nm ≠ "" ∧ '<' ∉ nm.toList ∧ nm.toList.head? ≠ some 'U')
    (id0 : List Char) (hv : validId id0) :
    ∀ items : List Item,
    startsWithB ('@' :: (id0 ++ ['>'])) (renderW repl P items) = true →
    startsWithB ('@' :: (id0 ++ ['>'])) (renderPlain items) = true
  | [], h => by
    exact absurd h (by simp [renderW, startsWithB])
  | .chr c :: rest, h => by
    rw [renderW_cons] at h
    rw [renderPlain_cons_chr]
    have h' : (('@' == c) && startsWithB (id0 ++ ['>']) (renderW repl P rest)) = true := h
    show (('@' == c) && startsWithB (id0 ++ ['>']) (renderPlain rest)) = true
    rw [Bool.and_eq_true] at h' ⊢
    exact ⟨h'.1, swB_render_suffix repl P (fun i n hn => (htame i n hn).1) rest id0
      hv.2.2 h'.2⟩
  | .tok ident :: rest, h => by
    exfalso
    rw [renderW_cons] at h
    rcases segShape_shape repl P ident with hseg | ⟨nm', hr, _, hseg⟩
    · rw [hseg] at h
      have hsh : tokStr ident ++ renderW repl P rest =
          '<' :: ('@' :: (ident ++ ['>']) ++ renderW repl P rest) := by
        unfold tokStr
        simp
      rw [hsh] at h
      exact absurd (startsWithB_head h).1 (by decide)
    · rw [hseg] at h
      have hsh : ('@' :: nm'.toList) ++ renderW repl P rest =
          '@' :: (nm'.toList ++ renderW repl P rest) := rfl
      rw [hsh] at h
      have h2 := (startsWithB_head h).2
      obtain ⟨hne, _, hheadU⟩ := htame ident nm' hr
      rcases hid0 : id0 with _ | ⟨u0, idt⟩
      · rw [hid0] at hv
        obtain ⟨hlen, _, _⟩ := hv
        simp at hlen
      · have hu0 : u0 = 'U' := by
          have := hv.2.1
          rw [hid0] at this
          simpa using this
        subst hu0
        rcases hnml : nm'.toList with _ | ⟨d0, ds⟩
        · apply hne
          have h4 := congrArg List.asString hnml
          rwa [String.asString_toList] at h4
        · rw [hid0, hnml] at h2
          have h3 : startsWithB ('U' :: (idt ++ ['>'])) (d0 :: (ds ++ renderW repl P rest))
              = true := h2
          have hd0 : ('U' : Char) = d0 := (startsWithB_head h3).1
          rw [hnml] at hheadU
          exact hheadU (by rw [← hd0]; rfl)

theorem swB_render_tok (repl : List Char → Option String) (P : List (List Char))
    (htame : ∀ ident nm, repl ident = some nm →
      nm ≠ "" ∧ '<' ∉ nm.toList ∧ nm.toList.head? ≠ some 'U')
    (id0 : List Char) (hv : validId id0) :
    ∀ items : List Item, scanOk items →
    startsWithB (tokStr id0) (renderW repl P items) = true →
    startsWithB (tokStr id0) (renderPlain items) = true
  | [], _, h => by
    exact absurd h (by simp [renderW, startsWithB, tokStr])
  | .chr c :: rest, hsc, h => by
    rw [renderW_cons] at h
    rw [renderPlain_cons_chr]
    have hts : tokStr id0 = '<' :: ('@' :: (id0 ++ ['>'])) := rfl
    rw [hts] at h ⊢
    have h' : (('<' == c) && startsWithB ('@' :: (id0 ++ ['>']))
      (renderW repl P rest)) = true := h
    show (('<' == c) && startsWithB ('@' :: (id0 ++ ['>'])) (renderPlain rest)) = true
    rw [Bool.and_eq_true] at h' ⊢
    exact ⟨h'.1, swB_render_at repl P htame id0 hv rest h'.2⟩
  | .tok ident :: rest, hsc, h => by
    rw [renderW_cons] at h
    rw [renderPlain_cons_tok]
    by_cases hid : ident = id0
    · subst hid
      exact startsWithB_self_append (tokStr ident) (renderPlain rest)
    · rcases segShape_shape repl P ident with hseg | ⟨nm', hr, _, hseg⟩
      · rw [hseg] at h
        rw [startsWithB_tok_ne id0 ident _ hv hsc.1 (fun he => hid he.symm)] at h
        exact absurd h Bool.false_ne_true
      · exfalso
        rw [hseg] at h
        have hsh : ('@' :: nm'.toList) ++ renderW repl P rest =
            '@' :: (nm'.toList ++ renderW repl P rest) := rfl
        rw [hsh] at h
        have hts : tokStr id0 = '<' :: ('@' :: (id0 ++ ['>'])) := rfl
        rw [hts] at h
        exact absurd (startsWithB_head h).1 (by decide)

/-! ### C4: one global replacement step advances the substitution state -/

theorem replaceAll_renderW (repl : List Char → Option String)
    (htame : ∀ ident nm, repl ident = some nm →
      nm ≠ "" ∧ '<' ∉ nm.toList ∧ nm.toList.head? ≠ some 'U')
    (id0 : List Char) (nm : String) (hv : validId id0) (hrepl : repl id0 = some nm)
    (P : List (List Char)) :
    ∀ items : List Item, scanOk items →
      replaceAll (renderW repl P items) (tokStr id0) ('@' :: nm.toList) =
        renderW repl (id0 :: P) items
  | [], _ => by
    show replaceAll [] (tokStr id0) ('@' :: nm.toList) = ([] : List Char)
    exact replaceAll_nil _ _
  | .chr c :: rest, hsc => by
    have ihrec := replaceAll_renderW repl htame id0 nm hv hrepl P rest hsc.2
    have hns : startsWithB (tokStr id0) (c :: renderW repl P rest) = false := by
      cases hsw : startsWithB (tokStr id0) (c :: renderW repl P rest) with
      | false => rfl
      | true =>
        exfalso
        have h1 : startsWithB (tokStr id0) (renderW repl P (.chr c :: rest)) = true := hsw
        have h2 := swB_render_tok repl P htame id0 hv (.chr c :: rest) hsc h1
        rw [renderPlain_cons_chr] at h2
        have h3 := startsWithB_eq_append _ _ h2
        have h4 : parseMention (c :: renderPlain rest) =
            some (id0, (c :: renderPlain rest).drop (tokStr id0).length) := by
          conv_lhs => rw [h3]
          exact parseMention_tok id0 _ hv
        rw [hsc.1] at h4
        simp at h4
    show replaceAll (c :: renderW repl P rest) (tokStr id0) ('@' :: nm.toList) =
      renderW repl (id0 :: P) (.chr c :: rest)
    rw [replaceAll_cons_no_match _ hns, ihrec]
    rfl
  | .tok ident :: rest, hsc => by
    have hvident := hsc.1
    have ihrec := replaceAll_renderW repl htame id0 nm hv hrepl P rest hsc.2
    by_cases hid : ident = id0
    · subst hid
      by_cases hP : ident ∈ P
      · have hseg : segShape repl P (.tok ident) = '@' :: nm.toList := by
          simp [segShape, hP, hrepl]
        have hseg' : segShape repl (ident :: P) (.tok ident) = '@' :: nm.toList := by
          simp [segShape, hrepl]
        have hnolt : ∀ c ∈ '@' :: nm.toList, c ≠ '<' := by
          intro c hc
          rcases List.mem_cons.mp hc with rfl | hc'
          · decide
          · intro he
            exact (htame ident nm hrepl).2.1 (he ▸ hc')
        rw [renderW_cons, hseg,
          replaceAll_skip_nolt (tokStr ident) ('@' :: nm.toList) rfl _ _ hnolt, ihrec,
          renderW_cons, hseg']
      · have hseg : segShape repl P (.tok ident) = tokStr ident := by
          simp [segShape, hP]
        have hseg' : segShape repl (ident :: P) (.tok ident) = '@' :: nm.toList := by
          simp [segShape, hrepl]
        rw [renderW_cons, hseg,
          replaceAll_match (tokStr ident) _ _ (by unfold tokStr; exact List.cons_ne_nil _ _),
          ihrec, renderW_cons, hseg']
    · rcases hr : repl ident with _ | nm'
      · have hseg : segShape repl P (.tok ident) = tokStr ident := by
          by_cases hP : ident ∈ P <;> simp [segShape, hP, hr]
        have hseg' : segShape repl (id0 :: P) (.tok ident) = tokStr ident := by
          by_cases hP : ident ∈ id0 :: P <;> simp [segShape, hP, hr]
        rw [renderW_cons, hseg, replaceAll_tok_seg id0 ident hv hvident hid, ihrec,
          renderW_cons, hseg']
      · by_cases hP : ident ∈ P
        · have hseg : segShape repl P (.tok ident) = '@' :: nm'.toList := by
            simp [segShape, hP, hr]
          have hP' : ident ∈ id0 :: P := List.mem_cons_of_mem _ hP
          have hseg' : segShape repl (id0 :: P) (.tok ident) = '@' :: nm'.toList := by
            simp [segShape, hP', hr]
          have hnolt : ∀ c ∈ '@' :: nm'.toList, c ≠ '<' := by
            intro c hc
            rcases List.mem_cons.mp hc with rfl | hc'
            · decide
            · intro he
              exact (htame ident nm' hr).2.1 (he ▸ hc')
          rw [renderW_cons, hseg,
            replaceAll_skip_nolt (tokStr id0) ('@' :: nm.toList) rfl _ _ hnolt, ihrec,
            renderW_cons, hseg']
        · have hseg : segShape repl P (.tok ident) = tokStr ident := by
            simp [segShape, hP]
          have hP' : ident ∉ id0 :: P := by
            simp [List.mem_cons, hid, hP]
          have hseg' : segShape repl (id0 :: P) (.tok ident) = tokStr ident := by
            simp [segShape, hP']
          rw [renderW_cons, hseg, replaceAll_tok_seg id0 ident hv hvident hid, ihrec,
            renderW_cons, hseg']

/-! ### C4: the sequential fold equals the one-pass substitution -/

theorem tokenIds_mem_rev {ident : List Char} : ∀ {items : List Item},
    ident ∈ tokenIds items → Item.tok ident ∈ items := by
  intro items
  induction items with
  | nil => intro h; simp [tokenIds] at h
  | cons i rest ih =>
    intro h
    rcases i with c | ident'
    · have h' : ident ∈ tokenIds rest := by simpa [tokenIds] using h
      exact List.mem_cons_of_mem _ (ih h')
    · simp only [tokenIds, List.flatMap_cons] at h
      rcases List.mem_append.mp h with h' | h'
      · have : ident = ident' := by simpa using h'
        rw [this]
        exact List.mem_cons_self _ rest
      · exact List.mem_cons_of_mem _ (ih (by simpa [tokenIds] using h'))

theorem alookup_mem {β : Type} : ∀ (m : List (String × β)) (k : String) (v : β),
    alookup m k = some v → (k, v) ∈ m
  | [], k, v, h => by simp [alookup] at h
  | (k', v') :: rest, k, v, h => by
    by_cases hk : k' = k
    · subst hk
      have hv : v' = v := by simpa [alookup] using h
      subst hv
      exact List.mem_cons_self _ rest
    · have h' : alookup rest k = some v := by simpa [alookup, hk] using h
      exact List.mem_cons_of_mem _ (alookup_mem rest k v h')

theorem tame_of_tameCacheB (cache : List (String × UserInfo))
    (h : tameCacheB cache = true) :
    ∀ ident nm, cacheRepl cache ident = some nm →
      nm ≠ "" ∧ '<' ∉ nm.toList ∧ nm.toList.head? ≠ some 'U' := by
  intro ident nm hr
  unfold cacheRepl mentionRepl at hr
  rcases hl : alookup cache ident.asString with _ | u
  · rw [hl] at hr
    simp at hr
  · rw [hl] at hr
    have hr' : (if pickUserName u ≠ "" ∧ pickUserName u ≠ "Unknown" then
        some (pickUserName u) else none) = some nm := hr
    by_cases hcond : pickUserName u ≠ "" ∧ pickUserName u ≠ "Unknown"
    · rw [if_pos hcond] at hr'
      have hnm : pickUserName u = nm := by simpa using hr'
      have hmem := alookup_mem cache _ u hl
      have htn := List.all_eq_true.mp h _ hmem
      rw [hnm] at htn hcond
      have htn' : (!nm.toList.contains '<' && !(nm.toList.head? == some 'U')) = true := htn
      rw [Bool.and_eq_true] at htn'
      refine ⟨hcond.1, ?_, ?_⟩
      · intro hmem'
        have : nm.toList.contains '<' = true := by
          rw [List.contains_iff_exists_mem_beq]
          exact ⟨'<', hmem', by simp⟩
        rw [this] at htn'
        simp at htn'
      · intro hhd
        have : (nm.toList.head? == some 'U') = true := by
          rw [hhd]
          simp
        rw [this] at htn'
        simp at htn'
    · rw [if_neg hcond] at hr'
      simp at hr'

theorem resolveSteps_renderW (cache : List (String × UserInfo))
    (htame : ∀ ident nm, cacheRepl cache ident = some nm →
      nm ≠ "" ∧ '<' ∉ nm.toList ∧ nm.toList.head? ≠ some 'U')
    (items : List Item) (hsc : scanOk items) :
    ∀ (ids P : List (List Char)), (∀ i ∈ ids, validId i) →
      List.foldl (resolveStep cache) (renderW (cacheRepl cache) P items) ids =
        renderW (cacheRepl cache) (ids.reverse ++ P) items
  | [], P, _ => by simp
  | id0 :: ids', P, hvs => by
    rw [List.foldl_cons]
    have hstep : resolveStep cache (renderW (cacheRepl cache) P items) id0 =
        renderW (cacheRepl cache) (id0 :: P) items := by
      rcases hr : cacheRepl cache id0 with _ | nm
      · have hstep0 : resolveStep cache (renderW (cacheRepl cache) P items) id0 =
            renderW (cacheRepl cache) P items := by
          unfold resolveStep
          rw [show mentionRepl cache id0.asString = none from hr]
        rw [hstep0]
        exact (renderW_cons_unresolved (cacheRepl cache) P id0 hr items).symm
      · have hstep0 : resolveStep cache (renderW (cacheRepl cache) P items) id0 =
            replaceAll (renderW (cacheRepl cache) P items) (tokStr id0)
              ('@' :: nm.toList) := by
          unfold resolveStep
          rw [show mentionRepl cache id0.asString = some nm from hr]
        rw [hstep0]
        exact replaceAll_renderW (cacheRepl cache) htame id0 nm
          (hvs id0 (List.mem_cons_self _ _)) hr P items hsc
    rw [hstep]
    rw [resolveSteps_renderW cache htame items hsc ids' (id0 :: P)
      (fun i hi => hvs i (List.mem_cons_of_mem _ hi))]
    simp

theorem resolveChars_eq_onePass (cache : List (String × UserInfo))
    (htame : ∀ ident nm, cacheRepl cache ident = some nm →
      nm ≠ "" ∧ '<' ∉ nm.toList ∧ nm.toList.head? ≠ some 'U')
    (text : List Char) :
    resolveChars cache text = onePass (cacheRepl cache) text := by
  unfold resolveChars
  have hsc := scanOk_tokenize text
  have hvs : ∀ i ∈ findMentions text, validId i := by
    intro i hi
    rw [findMentions_eq_tokenIds] at hi
    exact scanOk_valid (tokenize text) hsc i (tokenIds_mem_rev hi)
  have h0 : renderW (cacheRepl cache) [] (tokenize text) = text := by
    rw [renderW_nil_P, renderPlain_tokenize]
  calc (findMentions text).foldl (resolveStep cache) text
      = (findMentions text).foldl (resolveStep cache)
          (renderW (cacheRepl cache) [] (tokenize text)) := by rw [h0]
    _ = renderW (cacheRepl cache) ((findMentions text).reverse ++ [])
          (tokenize text) :=
        resolveSteps_renderW cache htame (tokenize text) hsc (findMentions text) [] hvs
    _ = renderFull (cacheRepl cache) (tokenize text) := by
        refine renderW_full _ _ _ ?_
        intro ident hm
        simp only [List.append_nil, List.mem_reverse]
        rw [findMentions_eq_tokenIds]
        exact tokenIds_mem hm
    _ = onePass (cacheRepl cache) text := (onePass_eq_renderFull _ text).symm

/-- C4 (amended): provided every name the cache can substitute is tame (it
contains no `<` and does not begin with `U`), `resolve_user_mentions` acts as
the one-pass simultaneous substitution: each mention token `<@U...>` whose id
is a cache key whose chained name (`display_name or real_name or name`) is
non-empty and not `'Unknown'` is replaced by `@` and that name, every other
token and all remaining text are unchanged, and a `None` or empty input is
returned unchanged. -/
theorem claim_C4 (cache : List (String × UserInfo)) (htame : tameCacheB cache = true) :
    (∀ text : String,
      resolve_user_mentions (some text) cache = some (simulResolveStr cache text)) ∧
    resolve_user_mentions none cache = none ∧
    resolve_user_mentions (some "") cache = some "" := by
  have hmain : ∀ text : String,
      resolve_user_mentions (some text) cache = some (simulResolveStr cache text) := by
    intro text
    show some (resolveTextStr cache text) = some (simulResolveStr cache text)
    unfold resolveTextStr simulResolveStr
    by_cases htxt : text = ""
    · subst htxt
      rfl
    · rw [if_neg htxt]
      exact congrArg (fun l => some (List.asString l))
        (resolveChars_eq_onePass cache (tame_of_tameCacheB cache htame) text.toList)
  exact ⟨hmain, rfl, hmain ""⟩

/-- C4 fails as stated: with a cached user whose `display_name` is the string
`'Unknown'` but whose `real_name` is usable, the claim prescribes replacing
the mention with `@Bob`, while the code's `or`-chain stops at the truthy
`'Unknown'` display name and leaves the token untouched. -/
theorem claim_C4_counterexample :
    resolve_user_mentions (some "<@UAAA>")
        [("UAAA", ⟨"UAAA", "bob", "Bob", "Unknown"⟩)] = some "<@UAAA>" ∧
    claimResolveStr [("UAAA", ⟨"UAAA", "bob", "Bob", "Unknown"⟩)] "<@UAAA>" = "@Bob" ∧
    ("<@UAAA>" : String) ≠ "@Bob" := by
  refine ⟨?_, ?_, ?_⟩ <;> decide

/-- Concrete instance of the amended C4: a tame cache resolves one mention
and leaves an unknown one alone. -/
theorem claim_C4_witness :
    resolve_user_mentions (some "hi <@UAA> and <@UZZ>")
        [("UAA", ⟨"UAA", "bob", "Bob", "display"⟩)] =
      some (simulResolveStr [("UAA", ⟨"UAA", "bob", "Bob", "display"⟩)]
        "hi <@UAA> and <@UZZ>") ∧
    simulResolveStr [("UAA", ⟨"UAA", "bob", "Bob", "display"⟩)]
        "hi <@UAA> and <@UZZ>" = "hi @display and <@UZZ>" :=
  ⟨(claim_C4 [("UAA", ⟨"UAA", "bob", "Bob", "display"⟩)] (by decide)).1
      "hi <@UAA> and <@UZZ>",
    by decide⟩

end TownCrier
